import Mathlib

/-!
# Media extension decoding (`extensions/media.go`)

A shallow embedding of the decoders of `extensions/media.go` together with the
parts of the Go standard library they call (`strings.Split`,
`strings.TrimSpace`, `strconv.Atoi`).

Modelling conventions.

* A Go `string` is a Lean `String`, i.e. well-formed UTF-8 text, inside the
  library models its list of characters; `len` is the length in bytes, indices
  into a string count characters, and loops over bytes that only test for
  ASCII characters are loops over characters.
* A Go `map[string]V` that is only read is an association list
  `List (String × V)` read with `List.lookup`; where the code tests the map
  against `nil` the map is an `Option` of such a list and `none` is `nil`.
* A Go slice result is an `Option (List α)`: `none` is the `nil` slice and
  `some l` a non-nil slice with elements `l`.
* Go `int` is the 64 bit integer type (`intSize = 64`), values are `Int`.
-/

namespace Gofeed

/-! ## Go slices -/

/-- A Go slice value: `none` is `nil`, `some l` is a non-nil slice. -/
abbrev Slice (α : Type) := Option (List α)

/-- Go `append(s, x)`: the result is never `nil`. -/
def goAppend {α : Type} (s : Slice α) (x : α) : Slice α :=
  some (s.getD [] ++ [x])

/-- Go `len(s)` of a slice. -/
def Slice.len {α : Type} (s : Slice α) : Nat := (s.getD []).length

/-- The elements of a slice, the `nil` slice read as the empty sequence. -/
def Slice.elems {α : Type} (s : Slice α) : List α := s.getD []

/-! ## `unicode.IsSpace` and `strings.TrimSpace` -/

/-- Go `unicode.IsSpace`: the Latin-1 cases of the switch, then the
`White_Space` range table. -/
def IsSpace (c : Char) : Bool :=
  let r := c.toNat
  if r ≤ 0xFF then
    r == 0x09 || r == 0x0A || r == 0x0B || r == 0x0C || r == 0x0D || r == 0x20
      || r == 0x85 || r == 0xA0
  else
    r == 0x1680 || (0x2000 ≤ r && r ≤ 0x200A) || r == 0x2028 || r == 0x2029
      || r == 0x202F || r == 0x205F || r == 0x3000

/-- Go `strings.TrimSpace`: the string with all leading and trailing white
space (as `unicode.IsSpace`) removed. -/
def TrimSpace (s : String) : String :=
  ⟨(s.data.dropWhile IsSpace).rdropWhile IsSpace⟩

/-! ## `strings.Index`, `strings.Count`, `strings.Split` -/

/-- Go `len(s)` of a string: the number of bytes of its UTF-8 encoding. -/
def len : List Char → Nat
  | [] => 0
  | c :: cs => c.utf8Size + len cs

/-- Go `strings.Index` on character lists: the index of the first instance of
`substr` in `s`, `none` for Go's `-1`. -/
def Index : List Char → List Char → Option Nat
  | [], substr => if substr = [] then some 0 else none
  | c :: cs, substr =>
    if substr.isPrefixOf (c :: cs) then some 0
    else (Index cs substr).map (· + 1)

/-- The `for` loop of Go `strings.Count` (substring of two or more bytes):
every round looks for the next instance and continues behind it. The first
argument bounds the number of rounds. -/
def countLoop : Nat → List Char → List Char → Nat
  | 0, _, _ => 0
  | fuel + 1, s, substr =>
    match Index s substr with
    | none => 0
    | some i => 1 + countLoop fuel (s.drop (i + substr.length)) substr

/-- Go `strings.Count`: the number of non-overlapping instances of `substr` in
`s`; for the empty `substr` one more than the number of characters, for a
`substr` of one byte the number of occurrences of that byte. The loop consumes
at least one character per round, so `s.length + 1` rounds are never used up. -/
def Count (s substr : List Char) : Nat :=
  if len substr = 0 then s.length + 1
  else if len substr = 1 then s.count (substr.headD ' ')
  else countLoop (s.length + 1) s substr

/-- Go `strings.explode` with `n = -1`: one string per character. -/
def explode (s : List Char) : List (List Char) :=
  s.map (fun c => [c])

/-- The `for i < n` loop of Go `strings.genSplit` (with `sepSave = 0`); the
first argument is the number `n - i` of rounds left. -/
def splitLoop : Nat → List Char → List Char → List (List Char)
  | 0, s, _ => [s]
  | k + 1, s, sep =>
    match Index s sep with
    | none => [s]
    | some m => s.take m :: splitLoop k (s.drop (m + sep.length)) sep

/-- Go `strings.genSplit(s, sep, 0, -1)`. -/
def genSplit (s sep : List Char) : List (List Char) :=
  if sep = [] then explode s
  else
    let n := Count s sep + 1
    let n := if n > len s + 1 then len s + 1 else n
    splitLoop (n - 1) s sep

/-- Go `strings.Split(s, sep)`. -/
def Split (s sep : String) : List String :=
  (genSplit s.data sep.data).map String.mk

/-! ## `strconv.ParseUint`, `strconv.ParseInt`, `strconv.Atoi` -/

/-- The two error kinds of `strconv.NumError` that base 10 parsing produces. -/
inductive NumError where
  | ErrSyntax
  | ErrRange
  deriving DecidableEq, Repr

/-- Go `strconv.IntSize` on a 64 bit platform. -/
def intSize : Nat := 64

/-- Go `maxUint64`. -/
def maxUint64 : Nat := 2 ^ 64 - 1

/-- Whether a byte is one of `'0'..'9'`. -/
def isDigit (c : Char) : Bool := 48 ≤ c.toNat && c.toNat ≤ 57

/-- The digit loop of Go `strconv.ParseUint` for base 10. Any byte that is no
decimal digit is a syntax error; an overflow of the `uint64` accumulator or of
`maxVal` is a range error that ends the loop at once with `maxVal`. -/
def parseUintLoop (maxVal : Nat) : List Char → Nat → Nat × Option NumError
  | [], n => (n, none)
  | c :: cs, n =>
    if isDigit c then
      let d := c.toNat - 48
      if n ≥ maxUint64 / 10 + 1 then (maxVal, some NumError.ErrRange)
      else
        let n10 := (n * 10) % 2 ^ 64
        let n1 := (n10 + d) % 2 ^ 64
        if n1 < n10 ∨ n1 > maxVal then (maxVal, some NumError.ErrRange)
        else parseUintLoop maxVal cs n1
    else (0, some NumError.ErrSyntax)

/-- Go `strconv.ParseUint(s, 10, bitSize)` for `bitSize ≤ 64`. -/
def ParseUint (s : List Char) (bitSize : Nat) : Nat × Option NumError :=
  if s = [] then (0, some NumError.ErrSyntax)
  else
    let bitSize := if bitSize = 0 then intSize else bitSize
    let maxVal := (2 ^ bitSize - 1) % 2 ^ 64
    parseUintLoop maxVal s 0

/-- Go conversion `int64(x)`: two's complement wrap-around to 64 bits. -/
def toInt64 (x : Int) : Int := (x + 2 ^ 63) % 2 ^ 64 - 2 ^ 63

/-- Go `strconv.ParseInt(s, 10, bitSize)`. -/
def ParseInt (s : List Char) (bitSize : Nat) : Int × Option NumError :=
  match s with
  | [] => (0, some NumError.ErrSyntax)
  | c :: cs =>
    let neg := c == '-'
    let s1 := if c == '+' ∨ c == '-' then cs else c :: cs
    let (un, err) := ParseUint s1 bitSize
    if err = some NumError.ErrSyntax then (0, err)
    else
      let bitSize := if bitSize = 0 then intSize else bitSize
      let cutoff := 2 ^ (bitSize - 1)
      if !neg ∧ un ≥ cutoff then (((cutoff - 1 : Nat) : Int), some NumError.ErrRange)
      else if neg ∧ un > cutoff then (-(cutoff : Int), some NumError.ErrRange)
      else
        let n := toInt64 un
        (if neg then toInt64 (-n) else n, none)

/-- The digit loop of the fast path of Go `strconv.Atoi`; `none` is the
syntax error return. -/
def atoiLoop : List Char → Int → Option Int
  | [], n => some n
  | ch :: cs, n =>
    if isDigit ch then atoiLoop cs (n * 10 + ((ch.toNat - 48 : Nat) : Int))
    else none

/-- Go `strconv.Atoi`: the value and the error. With at most 18 bytes the fast
path cannot overflow; everything else goes through `ParseInt`. -/
def Atoi (s : String) : Int × Option NumError :=
  let sLen := len s.data
  if (intSize = 32 ∧ 0 < sLen ∧ sLen < 10) ∨ (intSize = 64 ∧ 0 < sLen ∧ sLen < 19) then
    match s.data with
    | [] => (0, some NumError.ErrSyntax)
    | c :: cs =>
      let s1 := if c == '-' ∨ c == '+' then cs else c :: cs
      if (c == '-' ∨ c == '+') ∧ s1.length < 1 then (0, some NumError.ErrSyntax)
      else
        match atoiLoop s1 0 with
        | none => (0, some NumError.ErrSyntax)
        | some n => (if c == '-' then -n else n, none)
  else
    let (i64, err) := ParseInt s.data 0
    (toInt64 i64, err)

/-! ## The extension tree -/

/-- Modelled from the spec: the `Extension` type declaration is not in
`media.go`; section 3 describes an occurrence as a text `Value` and an
`Attrs` mapping from attribute name to string value. -/
structure Extension where
  Value : String
  Attrs : List (String × String)
  deriving DecidableEq, Repr

/-- The `map[string][]Extension` argument of the decoders; `none` is the `nil`
map. -/
abbrev Extensions := Option (List (String × List Extension))

/-- Go `MediaCategory`. -/
structure MediaCategory where
  Scheme : String
  Label : String
  Value : String
  deriving DecidableEq, Repr

/-- Go `MediaHash`. -/
structure MediaHash where
  Algorithm : String
  Hash : String
  deriving DecidableEq, Repr

/-- Go `MediaThumbnail`. -/
structure MediaThumbnail where
  Width : Int
  Height : Int
  URL : String
  deriving DecidableEq, Repr

/-- Go `MediaExtension`. -/
structure MediaExtension where
  Title : String
  Description : String
  Keywords : Slice String
  Categories : Slice MediaCategory
  Thumbnails : Slice MediaThumbnail
  Hashes : Slice MediaHash
  deriving DecidableEq, Repr

/-- Modelled from the spec: `parseTextExtension` is defined outside
`media.go`; section 4.2 says it returns the text value of the first occurrence
under `name`, or the empty string if none exists (also for the absent tree of
section 4.1). -/
def parseTextExtension (name : String) (extensions : Extensions) : String :=
  match extensions with
  | none => ""
  | some ext =>
    match ext.lookup name with
    | none => ""
    | some [] => ""
    | some (m :: _) => m.Value

/-! ## The decoders of `media.go` -/

/-- The body of the `for` loop of `parseMediaThumbnails`: the record built
from one occurrence. Both numeric fields are looked up under `"width"`. -/
def thumbnailOf (thumb : Extension) : MediaThumbnail :=
  let m : MediaThumbnail := { Width := 0, Height := 0, URL := "" }
  let m := match thumb.Attrs.lookup "url" with
    | some url => { m with URL := url }
    | none => m
  let m := match thumb.Attrs.lookup "width" with
    | some width => { m with Width := (Atoi width).1 }
    | none => m
  let m := match thumb.Attrs.lookup "width" with
    | some height => { m with Height := (Atoi height).1 }
    | none => m
  m

/-- Go `parseMediaThumbnails`. -/
def parseMediaThumbnails (extensions : Extensions) : Slice MediaThumbnail :=
  match extensions with
  | none => none
  | some ext =>
    match ext.lookup "thumbnail" with
    | none => none
    | some ms =>
      if ms.length = 0 then none
      else ms.foldl (fun thumbnails thumb => goAppend thumbnails (thumbnailOf thumb)) (some [])

/-- The body of the `for` loop of `parseMediaCategories`. -/
def categoryOf (cat : Extension) : MediaCategory :=
  let c : MediaCategory := { Scheme := "", Label := "", Value := "" }
  let c := match cat.Attrs.lookup "scheme" with
    | some scheme => { c with Scheme := scheme }
    | none => c
  let c := match cat.Attrs.lookup "label" with
    | some label => { c with Label := label }
    | none => c
  { c with Value := cat.Value }

/-- Go `parseMediaCategories`. -/
def parseMediaCategories (extensions : Extensions) : Slice MediaCategory :=
  match extensions with
  | none => none
  | some ext =>
    match ext.lookup "category" with
    | none => none
    | some ms =>
      if ms.length = 0 then none
      else ms.foldl (fun categories cat => goAppend categories (categoryOf cat)) (some [])

/-- The body of the `for` loop of `parseMediaHashes`. -/
def hashOf (hash : Extension) : MediaHash :=
  let h : MediaHash := { Algorithm := "", Hash := "" }
  let h := match hash.Attrs.lookup "algo" with
    | some algo => { h with Algorithm := algo }
    | none => h
  { h with Hash := hash.Value }

/-- Go `parseMediaHashes`. -/
def parseMediaHashes (extensions : Extensions) : Slice MediaHash :=
  match extensions with
  | none => none
  | some ext =>
    match ext.lookup "hash" with
    | none => none
    | some ms =>
      if ms.length = 0 then none
      else ms.foldl (fun hashes hash => goAppend hashes (hashOf hash)) (some [])

/-- Go `parseDelimitedTextExtension`. -/
def parseDelimitedTextExtension (name delimiter : String) (extensions : Extensions) :
    Slice String :=
  let val := parseTextExtension name extensions
  let vals := Split val delimiter
  vals.foldl (fun ret val => goAppend ret (TrimSpace val)) (some [])

/-- Go `NewMediaExtension`. -/
def NewMediaExtension (extensions : Extensions) : MediaExtension :=
  { Title := parseTextExtension "title" extensions
    Description := parseTextExtension "description" extensions
    Keywords := parseDelimitedTextExtension "keywords" "," extensions
    Thumbnails := parseMediaThumbnails extensions
    Categories := parseMediaCategories extensions
    Hashes := parseMediaHashes extensions }

/-! ## Specification-side notions -/

/-- Go `strings.Join` on character lists: the pieces with `sep` between
neighbours. -/
def Join : List (List Char) → List Char → List Char
  | [], _ => []
  | [a], _ => a
  | a :: b :: rest, sep => a ++ sep ++ Join (b :: rest) sep

/-- The value of a run of decimal digits, most significant digit first. -/
def decimalValue (ds : List Char) : Nat :=
  ds.foldl (fun a c => a * 10 + (c.toNat - 48)) 0

/-- The text behind an optional leading sign `+` or `-`. -/
def unsigned : List Char → List Char
  | [] => []
  | c :: cs => if c = '+' ∨ c = '-' then cs else c :: cs

/-- Decimal integer text: an optional sign followed by one or more decimal
digits and nothing else. -/
def isDecimalInteger (s : String) : Bool :=
  !(unsigned s.data).isEmpty && (unsigned s.data).all isDigit

/-- The digits that open the text behind the optional sign. -/
def leadingDigits (s : String) : List Char :=
  (unsigned s.data).takeWhile isDigit

/-- The integer that decimal integer text denotes: the value of its digits,
negated behind a `-`. -/
def intValue (s : String) : Int :=
  if s.data.head? = some '-' then -((decimalValue (unsigned s.data) : Nat) : Int)
  else ((decimalValue (unsigned s.data) : Nat) : Int)

/-- The smallest value of the 64 bit Go `int`. -/
def minInt : Int := -2 ^ 63

/-- The largest value of the 64 bit Go `int`. -/
def maxInt : Int := 2 ^ 63 - 1

/-- The value of the `int` range nearest to an integer. -/
def clampInt (v : Int) : Int :=
  if v > maxInt then maxInt else if v < minInt then minInt else v

/-- The canonical decimal text of an integer, as Go `strconv.Itoa` prints it:
the decimal digits of the absolute value without leading zeros, behind a `-`
for a negative integer. -/
def intText (n : Int) : String :=
  if n < 0 then ⟨'-' :: Nat.toDigits 10 n.natAbs⟩ else ⟨Nat.toDigits 10 n.natAbs⟩

/-- The occurrences registered under a name (section 4.1): none for the `nil`
tree and for an absent name. -/
def occurrences (tree : Extensions) (name : String) : List Extension :=
  ((tree.getD []).lookup name).getD []

/-! ## Supporting lemmas -/

theorem foldl_goAppend {α β : Type} (f : α → β) (l : List α) (acc : List β) :
    l.foldl (fun r x => goAppend r (f x)) (some acc) = some (acc ++ l.map f) := by
  induction l generalizing acc with
  | nil => simp
  | cons x xs ih =>
    have h : goAppend (some acc) (f x) = some (acc ++ [f x]) := rfl
    simp only [List.foldl_cons, h, ih, List.map_cons, List.append_assoc, List.singleton_append]

theorem parseMediaThumbnails_some (ext : List (String × List Extension))
    (ms : List Extension) (h : ext.lookup "thumbnail" = some ms) (hne : ms ≠ []) :
    parseMediaThumbnails (some ext) = some (ms.map thumbnailOf) := by
  simp [parseMediaThumbnails, h, hne, foldl_goAppend]

theorem parseMediaCategories_some (ext : List (String × List Extension))
    (ms : List Extension) (h : ext.lookup "category" = some ms) (hne : ms ≠ []) :
    parseMediaCategories (some ext) = some (ms.map categoryOf) := by
  simp [parseMediaCategories, h, hne, foldl_goAppend]

theorem parseMediaHashes_some (ext : List (String × List Extension))
    (ms : List Extension) (h : ext.lookup "hash" = some ms) (hne : ms ≠ []) :
    parseMediaHashes (some ext) = some (ms.map hashOf) := by
  simp [parseMediaHashes, h, hne, foldl_goAppend]

theorem parseDelimitedTextExtension_eq (name delimiter : String) (extensions : Extensions) :
    parseDelimitedTextExtension name delimiter extensions
      = some ((Split (parseTextExtension name extensions) delimiter).map TrimSpace) := by
  simp [parseDelimitedTextExtension, foldl_goAppend]

theorem categoryOf_fields (cat : Extension) :
    (categoryOf cat).Value = cat.Value
      ∧ (categoryOf cat).Scheme = (cat.Attrs.lookup "scheme").getD ""
      ∧ (categoryOf cat).Label = (cat.Attrs.lookup "label").getD "" := by
  unfold categoryOf
  cases h1 : cat.Attrs.lookup "scheme" <;> cases h2 : cat.Attrs.lookup "label" <;> simp

theorem hashOf_fields (hash : Extension) :
    (hashOf hash).Hash = hash.Value
      ∧ (hashOf hash).Algorithm = (hash.Attrs.lookup "algo").getD "" := by
  unfold hashOf
  cases h1 : hash.Attrs.lookup "algo" <;> simp

theorem thumbnailOf_fields (thumb : Extension) :
    (thumbnailOf thumb).URL = (thumb.Attrs.lookup "url").getD ""
      ∧ (thumbnailOf thumb).Width = ((thumb.Attrs.lookup "width").map (fun w => (Atoi w).1)).getD 0
      ∧ (thumbnailOf thumb).Height = ((thumb.Attrs.lookup "width").map (fun w => (Atoi w).1)).getD 0 := by
  unfold thumbnailOf
  cases h1 : thumb.Attrs.lookup "url" <;> cases h2 : thumb.Attrs.lookup "width" <;> simp

/-! ### `strings.Index` -/

theorem Index_nil_of_ne (sep : List Char) (h : sep ≠ []) : Index [] sep = none := by
  simp [Index, h]

theorem Index_some_split (sep : List Char) :
    ∀ (s : List Char) (m : Nat), Index s sep = some m →
      s = s.take m ++ sep ++ s.drop (m + sep.length) := by
  intro s
  induction s with
  | nil =>
    intro m h
    by_cases hs : sep = []
    · simp [hs]
    · simp [Index, hs] at h
  | cons c cs ih =>
    intro m h
    rw [Index] at h
    by_cases hp : sep.isPrefixOf (c :: cs) = true
    · rw [if_pos hp] at h
      obtain ⟨t, ht⟩ := List.isPrefixOf_iff_prefix.mp hp
      have hm : m = 0 := by simpa using h.symm
      subst hm
      rw [← ht]
      simp
    · rw [if_neg hp] at h
      cases hi : Index cs sep with
      | none => simp [hi] at h
      | some m1 =>
        rw [hi] at h
        have hm : m = m1 + 1 := by simpa using h.symm
        subst hm
        have := ih m1 hi
        have e : m1 + 1 + sep.length = (m1 + sep.length) + 1 := by omega
        rw [e]
        simp only [List.take_succ_cons, List.drop_succ_cons, List.cons_append]
        exact congrArg (List.cons c) this

theorem Index_some_length (sep : List Char) :
    ∀ (s : List Char) (m : Nat), Index s sep = some m → m + sep.length ≤ s.length := by
  intro s
  induction s with
  | nil =>
    intro m h
    by_cases hs : sep = []
    · simp [Index, hs] at h
      simp [hs, ← h]
    · simp [Index, hs] at h
  | cons c cs ih =>
    intro m h
    rw [Index] at h
    by_cases hp : sep.isPrefixOf (c :: cs) = true
    · rw [if_pos hp] at h
      have hm : m = 0 := by simpa using h.symm
      subst hm
      have := (List.isPrefixOf_iff_prefix.mp hp).length_le
      omega
    · rw [if_neg hp] at h
      cases hi : Index cs sep with
      | none => simp [hi] at h
      | some m1 =>
        rw [hi] at h
        have hm : m = m1 + 1 := by simpa using h.symm
        subst hm
        have := ih m1 hi
        simp only [List.length_cons]
        omega

theorem Index_take_none (sep : List Char) (hsep : sep ≠ []) :
    ∀ (s : List Char) (m : Nat), Index s sep = some m → Index (s.take m) sep = none := by
  intro s
  induction s with
  | nil => intro m _; simp [Index, hsep]
  | cons c cs ih =>
    intro m h
    rw [Index] at h
    by_cases hp : sep.isPrefixOf (c :: cs) = true
    · rw [if_pos hp] at h
      have hm : m = 0 := by simpa using h.symm
      subst hm
      simp [Index, hsep]
    · rw [if_neg hp] at h
      cases hi : Index cs sep with
      | none => simp [hi] at h
      | some m1 =>
        rw [hi] at h
        have hm : m = m1 + 1 := by simpa using h.symm
        subst hm
        have hnp : ¬ sep.isPrefixOf (c :: cs.take m1) = true := by
          intro hq
          apply hp
          rw [List.isPrefixOf_iff_prefix] at hq ⊢
          have hpre : (c :: cs.take m1) <+: (c :: cs) := by
            rw [List.prefix_cons_inj]
            exact List.take_prefix m1 cs
          exact hq.trans hpre
        rw [List.take_succ_cons, Index, if_neg hnp, ih m1 hi]
        rfl

theorem Index_singleton_none (c : Char) (s : List Char) :
    Index s [c] = none ↔ c ∉ s := by
  induction s with
  | nil => simp [Index]
  | cons x xs ih =>
    rw [Index]
    by_cases hx : c = x
    · subst hx
      simp [List.isPrefixOf]
    · have hp : ¬ [c].isPrefixOf (x :: xs) = true := by
        simp [List.isPrefixOf, hx]
      rw [if_neg hp]
      simp [ih, hx]

/-! ### `strings.Count` and `strings.Split` -/

theorem drop_length_lt (sep s : List Char) (hsep : sep ≠ []) (i : Nat)
    (h : Index s sep = some i) : (s.drop (i + sep.length)).length < s.length := by
  have h1 := Index_some_length sep s i h
  have h2 : 0 < sep.length := List.length_pos.mpr hsep
  simp only [List.length_drop]
  omega

theorem countLoop_fuel (sep : List Char) (hsep : sep ≠ []) :
    ∀ (f g : Nat) (s : List Char), s.length < f → s.length < g →
      countLoop f s sep = countLoop g s sep := by
  intro f
  induction f with
  | zero => intro g s hf; omega
  | succ f ih =>
    intro g s hf hg
    cases g with
    | zero => omega
    | succ g =>
      simp only [countLoop]
      cases hi : Index s sep with
      | none => rfl
      | some i =>
        have hlt := drop_length_lt sep s hsep i hi
        simp only
        rw [ih g (s.drop (i + sep.length)) (by omega) (by omega)]

theorem countLoop_le (sep : List Char) (hsep : sep ≠ []) :
    ∀ (f : Nat) (s : List Char), countLoop f s sep ≤ s.length := by
  intro f
  induction f with
  | zero => intro s; simp [countLoop]
  | succ f ih =>
    intro s
    simp only [countLoop]
    cases hi : Index s sep with
    | none => simp
    | some i =>
      have hlt := drop_length_lt sep s hsep i hi
      have := ih (s.drop (i + sep.length))
      simp only
      omega

theorem countLoop_singleton (c : Char) :
    ∀ (f : Nat) (s : List Char), s.length < f → countLoop f s [c] = s.count c := by
  intro f
  induction f with
  | zero => intro s hf; omega
  | succ f ih =>
    intro s hf
    simp only [countLoop]
    cases hi : Index s [c] with
    | none =>
      have := (Index_singleton_none c s).mp hi
      simp [List.count_eq_zero_of_not_mem this]
    | some i =>
      have hlt := drop_length_lt [c] s (by simp) i hi
      have hsplit := Index_some_split [c] s i hi
      have htake := (Index_singleton_none c (s.take i)).mp
        (Index_take_none [c] (by simp) s i hi)
      simp only
      rw [ih (s.drop (i + [c].length)) (by omega)]
      conv_rhs => rw [hsplit]
      simp [List.count_append, List.count_eq_zero_of_not_mem htake]
      omega

theorem length_le_len (s : List Char) : s.length ≤ len s := by
  induction s with
  | nil => simp [len]
  | cons c cs ih =>
    have := c.utf8Size_pos
    simp only [len, List.length_cons]
    omega

theorem len_eq_one (sep : List Char) (h : len sep = 1) : ∃ c, sep = [c] := by
  have hle := length_le_len sep
  cases sep with
  | nil => simp [len] at h
  | cons c cs =>
    cases cs with
    | nil => exact ⟨c, rfl⟩
    | cons d ds =>
      simp only [List.length_cons] at hle
      omega

theorem Count_eq_countLoop (s sep : List Char) (hsep : sep ≠ []) :
    Count s sep = countLoop (s.length + 1) s sep := by
  have h0 : len sep ≠ 0 := by
    have := length_le_len sep
    have := List.length_pos.mpr hsep
    omega
  unfold Count
  rw [if_neg h0]
  by_cases h1 : len sep = 1
  · rw [if_pos h1]
    obtain ⟨c, rfl⟩ := len_eq_one sep h1
    rw [countLoop_singleton c (s.length + 1) s (by omega)]
    rfl
  · rw [if_neg h1]

theorem genSplit_eq (s sep : List Char) (hsep : sep ≠ []) :
    genSplit s sep = splitLoop (countLoop (s.length + 1) s sep) s sep := by
  have hle := countLoop_le sep hsep (s.length + 1) s
  have hlen := length_le_len s
  unfold genSplit
  rw [if_neg hsep, Count_eq_countLoop s sep hsep]
  have hn : ¬ (countLoop (s.length + 1) s sep + 1 > len s + 1) := by omega
  simp only [if_neg hn, Nat.add_sub_cancel]

theorem Join_cons_splitLoop (sep a : List Char) (k : Nat) (s : List Char) :
    Join (a :: splitLoop k s sep) sep = a ++ sep ++ Join (splitLoop k s sep) sep := by
  cases k with
  | zero => simp [splitLoop, Join]
  | succ k =>
    simp only [splitLoop]
    cases Index s sep <;> simp [Join]

theorem Join_splitLoop (sep : List Char) :
    ∀ (k : Nat) (s : List Char), Join (splitLoop k s sep) sep = s := by
  intro k
  induction k with
  | zero => intro s; simp [splitLoop, Join]
  | succ k ih =>
    intro s
    simp only [splitLoop]
    cases hi : Index s sep with
    | none => simp [Join]
    | some m =>
      simp only
      rw [Join_cons_splitLoop, ih]
      exact (Index_some_split sep s m hi).symm

theorem splitLoop_length (sep : List Char) (hsep : sep ≠ []) :
    ∀ (f : Nat) (s : List Char), s.length < f →
      (splitLoop (countLoop f s sep) s sep).length = countLoop f s sep + 1 := by
  intro f
  induction f with
  | zero => intro s hf; omega
  | succ f ih =>
    intro s hf
    simp only [countLoop]
    cases hi : Index s sep with
    | none => simp [splitLoop]
    | some i =>
      have hlt := drop_length_lt sep s hsep i hi
      simp only
      rw [Nat.add_comm 1, splitLoop]
      simp only [hi, List.length_cons]
      rw [ih (s.drop (i + sep.length)) (by omega)]

theorem splitLoop_pieces (sep : List Char) (hsep : sep ≠ []) :
    ∀ (f : Nat) (s : List Char), s.length < f →
      ∀ p ∈ splitLoop (countLoop f s sep) s sep, Index p sep = none := by
  intro f
  induction f with
  | zero => intro s hf; omega
  | succ f ih =>
    intro s hf
    simp only [countLoop]
    cases hi : Index s sep with
    | none =>
      intro p hp
      simp [splitLoop] at hp
      rw [hp, hi]
    | some i =>
      have hlt := drop_length_lt sep s hsep i hi
      simp only
      rw [Nat.add_comm 1, splitLoop]
      simp only [hi, List.mem_cons]
      intro p hp
      rcases hp with rfl | hp
      · exact Index_take_none sep hsep s i hi
      · exact ih (s.drop (i + sep.length)) (by omega) p hp

theorem genSplit_nil (sep : List Char) (hsep : sep ≠ []) : genSplit [] sep = [[]] := by
  rw [genSplit_eq [] sep hsep]
  simp [countLoop, Index, hsep, splitLoop]

theorem Split_empty (sep : String) (hsep : sep ≠ "") : Split "" sep = [""] := by
  have h : sep.data ≠ [] := by
    intro h
    apply hsep
    exact String.ext h
  simp only [Split]
  rw [genSplit_nil sep.data h]
  rfl

theorem Split_empty_empty : Split "" "" = [] := by
  rfl

/-! ### `strings.TrimSpace` -/

theorem rdropWhile_append_rtakeWhile {α : Type} (p : α → Bool) (l : List α) :
    l.rdropWhile p ++ l.rtakeWhile p = l := by
  have h : (List.takeWhile p l.reverse ++ List.dropWhile p l.reverse).reverse = l.reverse.reverse :=
    congrArg List.reverse (List.takeWhile_append_dropWhile p l.reverse)
  rw [List.reverse_append, List.reverse_reverse] at h
  exact h

theorem TrimSpace_decomp (s : String) :
    ∃ l r : List Char, s.data = l ++ (TrimSpace s).data ++ r
      ∧ (∀ c ∈ l, IsSpace c = true) ∧ (∀ c ∈ r, IsSpace c = true) := by
  refine ⟨s.data.takeWhile IsSpace, (s.data.dropWhile IsSpace).rtakeWhile IsSpace, ?_, ?_, ?_⟩
  · simp only [TrimSpace]
    rw [List.append_assoc, rdropWhile_append_rtakeWhile, List.takeWhile_append_dropWhile]
  · intro c hc
    exact List.mem_takeWhile_imp hc
  · intro c hc
    exact List.mem_rtakeWhile_imp hc

theorem TrimSpace_head (s : String) (c : Char)
    (h : (TrimSpace s).data.head? = some c) : IsSpace c = false := by
  simp only [TrimSpace] at h
  obtain ⟨ys, hys⟩ := List.head?_eq_some_iff.mp h
  obtain ⟨t, ht⟩ := List.rdropWhile_prefix IsSpace (l := s.data.dropWhile IsSpace)
  rw [hys] at ht
  have hd := List.head?_dropWhile_not IsSpace s.data
  rw [← ht] at hd
  simpa using hd

theorem TrimSpace_getLast (s : String) (c : Char)
    (h : (TrimSpace s).data.getLast? = some c) : IsSpace c = false := by
  simp only [TrimSpace] at h
  have hne : (s.data.dropWhile IsSpace).rdropWhile IsSpace ≠ [] := by
    intro h0
    rw [h0] at h
    simp at h
  have hl := List.rdropWhile_last_not IsSpace (s.data.dropWhile IsSpace) hne
  rw [List.getLast?_eq_getLast _ hne] at h
  have hc : ((s.data.dropWhile IsSpace).rdropWhile IsSpace).getLast hne = c := by
    simpa using h
  rw [hc] at hl
  simpa using hl

/-! ### `strconv.Atoi` on text that is no decimal integer -/

theorem foldl_digits_le (l : List Char) :
    ∀ n : Nat, n ≤ l.foldl (fun a c => a * 10 + (c.toNat - 48)) n := by
  induction l with
  | nil => intro n; simp
  | cons c cs ih =>
    intro n
    simp only [List.foldl_cons]
    have := ih (n * 10 + (c.toNat - 48))
    omega

theorem parseUintLoop_of_not_digits :
    ∀ (l : List Char) (n : Nat), l.all isDigit = false →
      (l.takeWhile isDigit).foldl (fun a c => a * 10 + (c.toNat - 48)) n < 2 ^ 64 →
      parseUintLoop (2 ^ 64 - 1) l n = (0, some NumError.ErrSyntax) := by
  intro l
  induction l with
  | nil => intro n h; simp at h
  | cons c cs ih =>
    intro n hall hval
    rw [parseUintLoop]
    by_cases hc : isDigit c = true
    · rw [if_pos hc]
      have hall2 : cs.all isDigit = false := by
        simpa [List.all_cons, hc] using hall
      rw [List.takeWhile_cons_of_pos hc, List.foldl_cons] at hval
      have hle := foldl_digits_le (cs.takeWhile isDigit) (n * 10 + (c.toNat - 48))
      have hd : c.toNat - 48 ≤ 9 := by
        simp only [isDigit, Bool.and_eq_true, decide_eq_true_eq] at hc
        omega
      have hn1 : n * 10 + (c.toNat - 48) < 2 ^ 64 := lt_of_le_of_lt hle hval
      have h1 : ¬ (n ≥ maxUint64 / 10 + 1) := by
        simp only [maxUint64]
        omega
      have h2 : (n * 10) % 2 ^ 64 = n * 10 := Nat.mod_eq_of_lt (by omega)
      have h3 : (n * 10 + (c.toNat - 48)) % 2 ^ 64 = n * 10 + (c.toNat - 48) :=
        Nat.mod_eq_of_lt hn1
      have h4 : ¬ (n * 10 + (c.toNat - 48) < n * 10 ∨ n * 10 + (c.toNat - 48) > 2 ^ 64 - 1) := by
        omega
      simp only [if_neg h1, h2, h3, if_neg h4]
      exact ih _ hall2 hval
    · rw [if_neg hc]

theorem atoiLoop_none :
    ∀ (l : List Char) (n : Int), l.all isDigit = false → atoiLoop l n = none := by
  intro l
  induction l with
  | nil => intro n h; simp at h
  | cons c cs ih =>
    intro n hall
    rw [atoiLoop]
    by_cases hc : isDigit c = true
    · rw [if_pos hc]
      exact ih _ (by simpa [List.all_cons, hc] using hall)
    · rw [if_neg hc]

theorem ParseInt_of_not_decimal (l : List Char)
    (hnum : (!(unsigned l).isEmpty && (unsigned l).all isDigit) = false)
    (hval : decimalValue ((unsigned l).takeWhile isDigit) < 2 ^ 64) :
    ParseInt l 0 = (0, some NumError.ErrSyntax) := by
  cases l with
  | nil => rfl
  | cons c cs =>
    have hs1 : (if c == '+' ∨ c == '-' then cs else c :: cs) = unsigned (c :: cs) := by
      simp [unsigned]
    have hu : ParseUint (unsigned (c :: cs)) 0 = (0, some NumError.ErrSyntax) := by
      unfold ParseUint
      by_cases he : unsigned (c :: cs) = []
      · rw [if_pos he]
      · rw [if_neg he]
        have hall : (unsigned (c :: cs)).all isDigit = false := by
          cases hA : (unsigned (c :: cs)).all isDigit with
          | false => rfl
          | true =>
            rw [hA] at hnum
            cases hu : unsigned (c :: cs) with
            | nil => exact absurd hu he
            | cons a as => rw [hu] at hnum; simp at hnum
        have := parseUintLoop_of_not_digits (unsigned (c :: cs)) 0 hall hval
        simpa [intSize] using this
    simp only [ParseInt, hs1, hu]
    rfl

theorem Atoi_of_not_decimal (w : String) (hnum : isDecimalInteger w = false)
    (hval : decimalValue (leadingDigits w) < 2 ^ 64) :
    Atoi w = (0, some NumError.ErrSyntax) := by
  unfold Atoi
  simp only
  split
  · cases hd : w.data with
    | nil => rfl
    | cons c cs =>
      have hs1 : (if c == '-' ∨ c == '+' then cs else c :: cs) = unsigned (c :: cs) := by
        by_cases h1 : c = '+' <;> by_cases h2 : c = '-' <;> simp [unsigned, h1, h2]
      simp only [hs1]
      split
      · rfl
      · rename_i hcond
        have hall : (unsigned (c :: cs)).all isDigit = false := by
          cases hA : (unsigned (c :: cs)).all isDigit with
          | false => rfl
          | true =>
            exfalso
            simp only [isDecimalInteger, hd, hA, Bool.and_true, Bool.not_eq_false] at hnum
            have he : unsigned (c :: cs) = [] := by simpa using hnum
            apply hcond
            constructor
            · by_cases h1 : c = '+' <;> by_cases h2 : c = '-' <;> simp_all [unsigned]
            · simp [he]
        rw [atoiLoop_none _ _ hall]
  · have := ParseInt_of_not_decimal w.data hnum hval
    simp only [this]
    rfl

/-! ### The record decoders: `nil` results and lengths -/

theorem parseMediaThumbnails_eq (extensions : Extensions) :
    parseMediaThumbnails extensions
      = match (extensions.getD []).lookup "thumbnail" with
        | none => none
        | some [] => none
        | some (m :: ms) => some ((m :: ms).map thumbnailOf) := by
  cases extensions with
  | none => rfl
  | some ext =>
    simp only [Option.getD_some]
    cases h : ext.lookup "thumbnail" with
    | none => simp [parseMediaThumbnails, h]
    | some ms =>
      cases ms with
      | nil => simp [parseMediaThumbnails, h]
      | cons m ms => exact parseMediaThumbnails_some ext (m :: ms) h (by simp)

theorem parseMediaCategories_eq (extensions : Extensions) :
    parseMediaCategories extensions
      = match (extensions.getD []).lookup "category" with
        | none => none
        | some [] => none
        | some (m :: ms) => some ((m :: ms).map categoryOf) := by
  cases extensions with
  | none => rfl
  | some ext =>
    simp only [Option.getD_some]
    cases h : ext.lookup "category" with
    | none => simp [parseMediaCategories, h]
    | some ms =>
      cases ms with
      | nil => simp [parseMediaCategories, h]
      | cons m ms => exact parseMediaCategories_some ext (m :: ms) h (by simp)

theorem parseMediaHashes_eq (extensions : Extensions) :
    parseMediaHashes extensions
      = match (extensions.getD []).lookup "hash" with
        | none => none
        | some [] => none
        | some (m :: ms) => some ((m :: ms).map hashOf) := by
  cases extensions with
  | none => rfl
  | some ext =>
    simp only [Option.getD_some]
    cases h : ext.lookup "hash" with
    | none => simp [parseMediaHashes, h]
    | some ms =>
      cases ms with
      | nil => simp [parseMediaHashes, h]
      | cons m ms => exact parseMediaHashes_some ext (m :: ms) h (by simp)

theorem record_decoders_nil_iff (extensions : Extensions) :
    (parseMediaThumbnails extensions = none ↔
        extensions = none ∨ (extensions.getD []).lookup "thumbnail" = none
          ∨ (extensions.getD []).lookup "thumbnail" = some [])
      ∧ (parseMediaCategories extensions = none ↔
        extensions = none ∨ (extensions.getD []).lookup "category" = none
          ∨ (extensions.getD []).lookup "category" = some [])
      ∧ (parseMediaHashes extensions = none ↔
        extensions = none ∨ (extensions.getD []).lookup "hash" = none
          ∨ (extensions.getD []).lookup "hash" = some []) := by
  refine ⟨?_, ?_, ?_⟩
  · rw [parseMediaThumbnails_eq]
    cases extensions with
    | none => simp
    | some ext =>
      simp only [Option.getD_some]
      cases h : ext.lookup "thumbnail" with
      | none => simp
      | some ms => cases ms <;> simp
  · rw [parseMediaCategories_eq]
    cases extensions with
    | none => simp
    | some ext =>
      simp only [Option.getD_some]
      cases h : ext.lookup "category" with
      | none => simp
      | some ms => cases ms <;> simp
  · rw [parseMediaHashes_eq]
    cases extensions with
    | none => simp
    | some ext =>
      simp only [Option.getD_some]
      cases h : ext.lookup "hash" with
      | none => simp
      | some ms => cases ms <;> simp

theorem record_decoders_len (extensions : Extensions) :
    (parseMediaThumbnails extensions).len
        = (((extensions.getD []).lookup "thumbnail").getD []).length
      ∧ (parseMediaCategories extensions).len
        = (((extensions.getD []).lookup "category").getD []).length
      ∧ (parseMediaHashes extensions).len
        = (((extensions.getD []).lookup "hash").getD []).length := by
  refine ⟨?_, ?_, ?_⟩
  · rw [parseMediaThumbnails_eq]
    cases h : (extensions.getD []).lookup "thumbnail" with
    | none => rfl
    | some ms => cases ms <;> simp [Slice.len]
  · rw [parseMediaCategories_eq]
    cases h : (extensions.getD []).lookup "category" with
    | none => rfl
    | some ms => cases ms <;> simp [Slice.len]
  · rw [parseMediaHashes_eq]
    cases h : (extensions.getD []).lookup "hash" with
    | none => rfl
    | some ms => cases ms <;> simp [Slice.len]

/-! ## The claims -/

/-- C1: at the attributes `url = "http://x/y.png"`, `width = "120"`,
`height = "80"`, both decimal integers, the decoder returns `Height = 120`,
the value of the width attribute, while the integer value of the height
attribute is 80. -/
theorem parseMediaThumbnails_height_from_width :
    isDecimalInteger "120" = true ∧ isDecimalInteger "80" = true
      ∧ (Atoi "80").1 = 80
      ∧ parseMediaThumbnails (some [("thumbnail",
            [⟨"", [("url", "http://x/y.png"), ("width", "120"), ("height", "80")]⟩])])
          = some [{ URL := "http://x/y.png", Width := 120, Height := 120 }] := by
  decide

/-- C2: for every tree, element name and delimiter the result of
`parseDelimitedTextExtension` is the non-nil sequence of the pieces of the
scalar text of the name, each trimmed, in order. The pieces are those of
`strings.Split`: for a non-empty delimiter they give back the text when joined
with the delimiter and none of them contains the delimiter, for the empty
delimiter they are the single characters. Trimming removes white space only, and
no element of the result starts or ends with white space. The text `"a, b ,c"`
with delimiter `","` yields `["a", "b", "c"]`. -/
theorem parseDelimitedTextExtension_split_trim (name delimiter : String)
    (extensions : Extensions) :
    ∃ pieces : List String,
      pieces = Split (parseTextExtension name extensions) delimiter
      ∧ parseDelimitedTextExtension name delimiter extensions = some (pieces.map TrimSpace)
      ∧ (delimiter ≠ "" →
          Join (pieces.map String.data) delimiter.data
              = (parseTextExtension name extensions).data
            ∧ ∀ p ∈ pieces, Index p.data delimiter.data = none)
      ∧ (delimiter = "" →
          pieces = (parseTextExtension name extensions).data.map (fun c => String.mk [c]))
      ∧ (∀ p ∈ pieces, ∃ l r : List Char, p.data = l ++ (TrimSpace p).data ++ r
            ∧ (∀ c ∈ l, IsSpace c = true) ∧ (∀ c ∈ r, IsSpace c = true))
      ∧ (∀ x ∈ (parseDelimitedTextExtension name delimiter extensions).elems,
            ∀ c : Char, x.data.head? = some c ∨ x.data.getLast? = some c → IsSpace c = false)
      ∧ parseDelimitedTextExtension "keywords" "," (some [("keywords", [⟨"a, b ,c", []⟩])])
          = some ["a", "b", "c"] := by
  refine ⟨Split (parseTextExtension name extensions) delimiter, rfl,
    parseDelimitedTextExtension_eq name delimiter extensions, ?_, ?_, ?_, ?_, by decide⟩
  · intro hd
    have hsep : delimiter.data ≠ [] := fun h => hd (String.ext h)
    have hmap : (Split (parseTextExtension name extensions) delimiter).map String.data
        = genSplit (parseTextExtension name extensions).data delimiter.data := by
      simp [Split, Function.comp_def]
    constructor
    · rw [hmap, genSplit_eq _ _ hsep]
      exact Join_splitLoop delimiter.data _ _
    · intro p hp
      have hp2 : p.data ∈ genSplit (parseTextExtension name extensions).data delimiter.data := by
        rw [← hmap]
        exact List.mem_map_of_mem String.data hp
      rw [genSplit_eq _ _ hsep] at hp2
      exact splitLoop_pieces delimiter.data hsep _ _ (Nat.lt_succ_self _) _ hp2
  · intro hd
    subst hd
    simp [Split, genSplit, explode]
  · intro p _
    exact TrimSpace_decomp p
  · intro x hx c hc
    rw [parseDelimitedTextExtension_eq] at hx
    simp only [Slice.elems, Option.getD_some, List.mem_map] at hx
    obtain ⟨p, _, rfl⟩ := hx
    rcases hc with hc | hc
    · exact TrimSpace_head p c hc
    · exact TrimSpace_getLast p c hc

/-- C2 at the tree with the single keywords text `"x ;y"` and delimiter `";"`. -/
theorem parseDelimitedTextExtension_split_trim_witness :
    ∃ pieces : List String,
      pieces = [String.mk ['x', ' '], "y"]
      ∧ parseDelimitedTextExtension "keywords" ";" (some [("keywords", [⟨"x ;y", []⟩])])
          = some (pieces.map TrimSpace) := by
  obtain ⟨pieces, h1, h2, _⟩ :=
    parseDelimitedTextExtension_split_trim "keywords" ";" (some [("keywords", [⟨"x ;y", []⟩])])
  exact ⟨pieces, by rw [h1]; decide, h2⟩

/-- C3 (counterexample): the width text `"99999999999999999999x"` is no decimal
integer, yet the record of that occurrence gets `Width = 9223372036854775807`
and not `0`: `strconv.Atoi` ends at the overflowing digit with a range error
and the largest `int`, and the decoder stores that value. -/
theorem thumbnail_width_overflow_not_zero :
    isDecimalInteger "99999999999999999999x" = false
      ∧ parseMediaThumbnails (some [("thumbnail",
            [⟨"", [("url", "http://x/y.png"), ("width", "99999999999999999999x")]⟩])])
          = some [{ URL := "http://x/y.png", Width := 9223372036854775807,
                    Height := 9223372036854775807 }]
      ∧ ¬ (∀ r ∈ (parseMediaThumbnails (some [("thumbnail",
            [⟨"", [("url", "http://x/y.png"), ("width", "99999999999999999999x")]⟩])])).elems,
            r.Width = 0) := by
  decide

/-- C3 (amended): in every list of thumbnail occurrences, an occurrence whose
width attribute is no decimal integer and whose leading digits (behind an
optional sign) stay below `2 ^ 64` yields a record with `Width = 0`; that
record is emitted at the position of the occurrence with its `URL` taken from
the url attribute, the result is a non-nil sequence (there is no error
result), and the records of all other occurrences are the same whatever
occurrence stands in its place. -/
theorem parseMediaThumbnails_malformed_width
    (ext : List (String × List Extension)) (pre post : List Extension)
    (x : Extension) (w : String)
    (hlook : ext.lookup "thumbnail" = some (pre ++ x :: post))
    (hw : x.Attrs.lookup "width" = some w)
    (hnum : isDecimalInteger w = false)
    (hval : decimalValue (leadingDigits w) < 2 ^ 64) :
    ∃ (A B : List MediaThumbnail) (r : MediaThumbnail),
      A.length = pre.length ∧ B.length = post.length
      ∧ parseMediaThumbnails (some ext) = some (A ++ r :: B)
      ∧ r.Width = 0
      ∧ r.URL = (x.Attrs.lookup "url").getD ""
      ∧ ∀ (ext2 : List (String × List Extension)) (x2 : Extension),
          ext2.lookup "thumbnail" = some (pre ++ x2 :: post) →
          ∃ r2 : MediaThumbnail, parseMediaThumbnails (some ext2) = some (A ++ r2 :: B) := by
  refine ⟨pre.map thumbnailOf, post.map thumbnailOf, thumbnailOf x, by simp, by simp, ?_, ?_,
    (thumbnailOf_fields x).1, ?_⟩
  · rw [parseMediaThumbnails_some ext _ hlook (by simp)]
    simp
  · rw [(thumbnailOf_fields x).2.1, hw]
    simp [Atoi_of_not_decimal w hnum hval]
  · intro ext2 x2 h2
    refine ⟨thumbnailOf x2, ?_⟩
    rw [parseMediaThumbnails_some ext2 _ h2 (by simp)]
    simp

/-- C3 (amended) at three occurrences, the middle one with width `"abc"`. -/
theorem parseMediaThumbnails_malformed_width_witness :
    isDecimalInteger "abc" = false ∧ decimalValue (leadingDigits "abc") < 2 ^ 64
      ∧ ∃ (A B : List MediaThumbnail) (r : MediaThumbnail),
          A.length = 1 ∧ B.length = 1
          ∧ parseMediaThumbnails (some [("thumbnail",
                [⟨"", [("url", "a"), ("width", "10")]⟩,
                 ⟨"", [("url", "http://x/y.png"), ("width", "abc")]⟩,
                 ⟨"", [("width", "7")]⟩])]) = some (A ++ r :: B)
          ∧ r.Width = 0 ∧ r.URL = "http://x/y.png" := by
  refine ⟨by decide, by decide, ?_⟩
  obtain ⟨A, B, r, hA, hB, hp, hr, hu, _⟩ :=
    parseMediaThumbnails_malformed_width
      [("thumbnail",
        [⟨"", [("url", "a"), ("width", "10")]⟩,
         ⟨"", [("url", "http://x/y.png"), ("width", "abc")]⟩,
         ⟨"", [("width", "7")]⟩])]
      [⟨"", [("url", "a"), ("width", "10")]⟩] [⟨"", [("width", "7")]⟩]
      ⟨"", [("url", "http://x/y.png"), ("width", "abc")]⟩ "abc"
      (by decide) (by decide) (by decide) (by decide)
  exact ⟨A, B, r, hA, hB, hp, hr, hu⟩

/-- C4: for every occurrence under `"category"`, at whatever position, the
result of `parseMediaCategories` has as many records as there are occurrences
and the record at that position has `Value` the occurrence's text, `Scheme` the
scheme attribute if present else `""` and `Label` the label attribute if present
else `""`. Text `"News"` with `scheme = "dmoz"`, `label = "Top/News"` yields
`{Scheme: "dmoz", Label: "Top/News", Value: "News"}`. -/
theorem parseMediaCategories_record
    (ext : List (String × List Extension)) (ms : List Extension) (i : Nat) (o : Extension)
    (hlook : ext.lookup "category" = some ms) (hi : ms[i]? = some o) :
    (∃ (cs : List MediaCategory) (r : MediaCategory),
        parseMediaCategories (some ext) = some cs ∧ cs.length = ms.length
        ∧ cs[i]? = some r
        ∧ r.Value = o.Value
        ∧ r.Scheme = (o.Attrs.lookup "scheme").getD ""
        ∧ r.Label = (o.Attrs.lookup "label").getD "")
      ∧ parseMediaCategories (some [("category",
            [⟨"News", [("scheme", "dmoz"), ("label", "Top/News")]⟩])])
          = some [{ Scheme := "dmoz", Label := "Top/News", Value := "News" }] := by
  refine ⟨?_, by decide⟩
  have hne : ms ≠ [] := by
    intro h
    rw [h] at hi
    simp at hi
  refine ⟨ms.map categoryOf, categoryOf o, parseMediaCategories_some ext ms hlook hne,
    by simp, by simp [hi], categoryOf_fields o⟩

/-- C4 at a tree with two category occurrences, read at the second one, which
has no label attribute. -/
theorem parseMediaCategories_record_witness :
    ∃ (cs : List MediaCategory) (r : MediaCategory),
      parseMediaCategories (some [("category",
          [⟨"News", [("scheme", "dmoz"), ("label", "Top/News")]⟩,
           ⟨"Sports", [("scheme", "s")]⟩])]) = some cs
      ∧ cs.length = 2 ∧ cs[1]? = some r
      ∧ r.Value = "Sports" ∧ r.Scheme = "s" ∧ r.Label = "" :=
  (parseMediaCategories_record
    [("category",
      [⟨"News", [("scheme", "dmoz"), ("label", "Top/News")]⟩, ⟨"Sports", [("scheme", "s")]⟩])]
    [⟨"News", [("scheme", "dmoz"), ("label", "Top/News")]⟩, ⟨"Sports", [("scheme", "s")]⟩]
    1 ⟨"Sports", [("scheme", "s")]⟩ (by decide) (by decide)).1

/-- C5: for every tree whose `"hash"` key holds `n ≥ 1` occurrences,
`parseMediaHashes` returns exactly `n` records and the record at position `i`
has `Hash` the text of occurrence `i` and `Algorithm` its algo attribute (`""`
if absent); two occurrences yield the two records in the original order. -/
theorem parseMediaHashes_records
    (ext : List (String × List Extension)) (ms : List Extension)
    (hlook : ext.lookup "hash" = some ms) (hn : 1 ≤ ms.length) :
    (∃ hs : List MediaHash,
        parseMediaHashes (some ext) = some hs ∧ hs.length = ms.length
        ∧ ∀ (i : Nat) (o : Extension), ms[i]? = some o →
            ∃ r : MediaHash, hs[i]? = some r ∧ r.Hash = o.Value
              ∧ r.Algorithm = (o.Attrs.lookup "algo").getD "")
      ∧ parseMediaHashes (some [("hash",
            [⟨"abc", [("algo", "md5")]⟩, ⟨"def", [("algo", "sha-1")]⟩])])
          = some [{ Algorithm := "md5", Hash := "abc" }, { Algorithm := "sha-1", Hash := "def" }] := by
  refine ⟨?_, by decide⟩
  have hne : ms ≠ [] := by
    intro h
    rw [h] at hn
    simp at hn
  refine ⟨ms.map hashOf, parseMediaHashes_some ext ms hlook hne, by simp, ?_⟩
  intro i o hi
  exact ⟨hashOf o, by simp [hi], hashOf_fields o⟩

/-- C5 at a tree with two hash occurrences, the second without algo. -/
theorem parseMediaHashes_records_witness :
    ∃ hs : List MediaHash,
      parseMediaHashes (some [("title", [⟨"t", []⟩]),
          ("hash", [⟨"abc", [("algo", "md5")]⟩, ⟨"def", []⟩])]) = some hs
      ∧ hs.length = 2
      ∧ ∀ (i : Nat) (o : Extension),
          [(⟨"abc", [("algo", "md5")]⟩ : Extension), ⟨"def", []⟩][i]? = some o →
          ∃ r : MediaHash, hs[i]? = some r ∧ r.Hash = o.Value
            ∧ r.Algorithm = (o.Attrs.lookup "algo").getD "" :=
  (parseMediaHashes_records
    [("title", [⟨"t", []⟩]), ("hash", [⟨"abc", [("algo", "md5")]⟩, ⟨"def", []⟩])]
    [⟨"abc", [("algo", "md5")]⟩, ⟨"def", []⟩] (by decide) (by decide)).1

theorem parseTextExtension_eq (name : String) (extensions : Extensions) :
    parseTextExtension name extensions
      = ((((extensions.getD []).lookup name).getD []).head?.map Extension.Value).getD "" := by
  cases extensions with
  | none => rfl
  | some ext =>
    simp only [parseTextExtension, Option.getD_some]
    cases h : ext.lookup name with
    | none => rfl
    | some ms => cases ms <;> rfl

/-- C6: for every tree the `Title` and the `Description` of
`NewMediaExtension` are the text of the first occurrence under `"title"` and
`"description"`, or the empty string when there is none (`nil` tree, absent
name, empty list); two trees whose lists under the name start with the same
occurrence give the same text, whatever follows it. -/
theorem NewMediaExtension_title_description (extensions : Extensions) :
    (NewMediaExtension extensions).Title
        = ((((extensions.getD []).lookup "title").getD []).head?.map Extension.Value).getD ""
      ∧ (NewMediaExtension extensions).Description
        = ((((extensions.getD []).lookup "description").getD []).head?.map
            Extension.Value).getD ""
      ∧ (∀ (ext2 : Extensions) (o : Extension) (rest rest2 : List Extension),
          (extensions.getD []).lookup "title" = some (o :: rest) →
          (ext2.getD []).lookup "title" = some (o :: rest2) →
          (NewMediaExtension extensions).Title = o.Value
            ∧ (NewMediaExtension ext2).Title = o.Value)
      ∧ (∀ (ext2 : Extensions) (o : Extension) (rest rest2 : List Extension),
          (extensions.getD []).lookup "description" = some (o :: rest) →
          (ext2.getD []).lookup "description" = some (o :: rest2) →
          (NewMediaExtension extensions).Description = o.Value
            ∧ (NewMediaExtension ext2).Description = o.Value) := by
  refine ⟨parseTextExtension_eq "title" extensions,
    parseTextExtension_eq "description" extensions, ?_, ?_⟩
  · intro ext2 o rest rest2 h1 h2
    constructor
    · show parseTextExtension "title" extensions = o.Value
      rw [parseTextExtension_eq, h1]
      rfl
    · show parseTextExtension "title" ext2 = o.Value
      rw [parseTextExtension_eq, h2]
      rfl
  · intro ext2 o rest rest2 h1 h2
    constructor
    · show parseTextExtension "description" extensions = o.Value
      rw [parseTextExtension_eq, h1]
      rfl
    · show parseTextExtension "description" ext2 = o.Value
      rw [parseTextExtension_eq, h2]
      rfl

/-- C6 at a tree with two titles and no description, against a tree with the
same first title only. -/
theorem NewMediaExtension_title_description_witness :
    (NewMediaExtension (some [("title", [⟨"first", []⟩, ⟨"second", []⟩])])).Title = "first"
      ∧ (NewMediaExtension (some [("title", [⟨"first", []⟩])])).Title = "first"
      ∧ (NewMediaExtension (some [("title", [⟨"first", []⟩, ⟨"second", []⟩])])).Description
          = "" :=
  ⟨((NewMediaExtension_title_description
        (some [("title", [⟨"first", []⟩, ⟨"second", []⟩])])).2.2.1
      (some [("title", [⟨"first", []⟩])]) ⟨"first", []⟩ [⟨"second", []⟩] [] rfl rfl).1,
   ((NewMediaExtension_title_description
        (some [("title", [⟨"first", []⟩, ⟨"second", []⟩])])).2.2.1
      (some [("title", [⟨"first", []⟩])]) ⟨"first", []⟩ [⟨"second", []⟩] [] rfl rfl).2,
   (NewMediaExtension_title_description
        (some [("title", [⟨"first", []⟩, ⟨"second", []⟩])])).2.1⟩

/-- C7 (counterexample): the empty tree has no `"keywords"`, yet
`parseDelimitedTextExtension` returns the one-element sequence `[""]` for it
and not the `nil` sequence. -/
theorem parseDelimitedTextExtension_absent_not_nil :
    ((some [] : Extensions).getD []).lookup "keywords" = none
      ∧ parseDelimitedTextExtension "keywords" "," (some []) = some [""]
      ∧ parseDelimitedTextExtension "keywords" "," (some []) ≠ none := by
  decide

/-- C7 (amended): for every tree (the `nil` tree included) and every element
name absent from it, the scalar text decoder returns the empty string, each of
the three record decoders whose name it is returns the `nil` sequence, and
`parseDelimitedTextExtension` returns a non-nil sequence: `[""]` for a
non-empty delimiter, the empty sequence for the empty delimiter. -/
theorem decoders_absent_name (extensions : Extensions) (name delimiter : String)
    (habs : (extensions.getD []).lookup name = none) :
    parseTextExtension name extensions = ""
      ∧ parseDelimitedTextExtension name delimiter extensions
          = some (if delimiter = "" then [] else [""])
      ∧ (name = "thumbnail" → parseMediaThumbnails extensions = none)
      ∧ (name = "category" → parseMediaCategories extensions = none)
      ∧ (name = "hash" → parseMediaHashes extensions = none) := by
  have htxt : parseTextExtension name extensions = "" := by
    rw [parseTextExtension_eq, habs]
    rfl
  refine ⟨htxt, ?_, ?_, ?_, ?_⟩
  · rw [parseDelimitedTextExtension_eq, htxt]
    by_cases hd : delimiter = ""
    · subst hd
      rw [Split_empty_empty]
      rfl
    · rw [Split_empty delimiter hd, if_neg hd]
      rfl
  · intro hn
    subst hn
    rw [parseMediaThumbnails_eq, habs]
  · intro hn
    subst hn
    rw [parseMediaCategories_eq, habs]
  · intro hn
    subst hn
    rw [parseMediaHashes_eq, habs]

/-- C7 (amended) at a tree that holds a title only, for the name `"hash"`. -/
theorem decoders_absent_name_witness :
    ((some [("title", [⟨"t", []⟩])] : Extensions).getD []).lookup "hash" = none
      ∧ parseTextExtension "hash" (some [("title", [⟨"t", []⟩])]) = ""
      ∧ parseDelimitedTextExtension "hash" "," (some [("title", [⟨"t", []⟩])]) = some [""]
      ∧ parseMediaHashes (some [("title", [⟨"t", []⟩])]) = none :=
  ⟨by decide,
   (decoders_absent_name (some [("title", [⟨"t", []⟩])]) "hash" "," (by decide)).1,
   (decoders_absent_name (some [("title", [⟨"t", []⟩])]) "hash" "," (by decide)).2.1,
   (decoders_absent_name (some [("title", [⟨"t", []⟩])]) "hash" "," (by decide)).2.2.2.2 rfl⟩

/-- C8 (counterexample): the `Keywords` of `NewMediaExtension` at the `nil`
tree are the non-nil one-element sequence `[""]`, not `nil`. -/
theorem nil_tree_keywords_not_nil :
    (NewMediaExtension none).Keywords = some [""]
      ∧ (NewMediaExtension none).Keywords ≠ none := by
  decide

/-- C8 (amended): `NewMediaExtension` at the `nil` tree returns the record with
`Title = ""`, `Description = ""`, `Categories`, `Thumbnails` and `Hashes` all
`nil`, and `Keywords` the one-element sequence `[""]`. -/
theorem NewMediaExtension_nil :
    NewMediaExtension none
      = { Title := "", Description := "", Keywords := some [""],
          Categories := none, Thumbnails := none, Hashes := none } := by
  decide

/-- C9 (counterexample): at the `nil` tree the raw text of `"keywords"` is
empty, and with the empty delimiter `parseDelimitedTextExtension` returns the
empty non-nil sequence, not `[""]`. -/
theorem parseDelimitedTextExtension_empty_delimiter :
    parseTextExtension "keywords" none = ""
      ∧ parseDelimitedTextExtension "keywords" "" none = some []
      ∧ parseDelimitedTextExtension "keywords" "" none ≠ some [""] := by
  decide

/-- C9 (amended): for every tree, element name and non-empty delimiter, if the
raw scalar text of the name is the empty string then
`parseDelimitedTextExtension` returns exactly the one-element sequence
`[""]`. -/
theorem parseDelimitedTextExtension_empty_text (name delimiter : String)
    (extensions : Extensions)
    (hraw : parseTextExtension name extensions = "") (hd : delimiter ≠ "") :
    parseDelimitedTextExtension name delimiter extensions = some [""] := by
  rw [parseDelimitedTextExtension_eq, hraw, Split_empty delimiter hd]
  rfl

/-- C9 (amended) at a tree whose keywords occurrence has empty text, with the
two-character delimiter `", "`. -/
theorem parseDelimitedTextExtension_empty_text_witness :
    parseTextExtension "keywords" (some [("keywords", [⟨"", [("a", "b")]⟩])]) = ""
      ∧ (", " : String) ≠ ""
      ∧ parseDelimitedTextExtension "keywords" ", "
          (some [("keywords", [⟨"", [("a", "b")]⟩])]) = some [""] :=
  ⟨by decide, by decide,
   parseDelimitedTextExtension_empty_text "keywords" ", "
     (some [("keywords", [⟨"", [("a", "b")]⟩])]) (by decide) (by decide)⟩

/-- C10: a thumbnail occurrence with a width attribute and no height attribute
is not skipped, but its record has `Height = 120`, the value of the width
attribute, and not `0`. -/
theorem parseMediaThumbnails_missing_height_not_zero :
    ([("width", "120")] : List (String × String)).lookup "height" = none
      ∧ parseMediaThumbnails (some [("thumbnail", [⟨"", [("width", "120")]⟩])])
          = some [{ URL := "", Width := 120, Height := 120 }] := by
  decide

/-! ### `strconv.Atoi` on decimal integer text -/

theorem digit_le_nine (c : Char) (hc : isDigit c = true) : c.toNat - 48 ≤ 9 := by
  simp only [isDigit, Bool.and_eq_true, decide_eq_true_eq] at hc
  omega

theorem parseUintLoop_digits :
    ∀ (ds : List Char) (n : Nat), ds.all isDigit = true → n < 2 ^ 64 →
      parseUintLoop (2 ^ 64 - 1) ds n
        = if ds.foldl (fun a c => a * 10 + (c.toNat - 48)) n < 2 ^ 64
          then (ds.foldl (fun a c => a * 10 + (c.toNat - 48)) n, none)
          else (2 ^ 64 - 1, some NumError.ErrRange) := by
  intro ds
  induction ds with
  | nil =>
    intro n _ hn
    rw [parseUintLoop, List.foldl_nil, if_pos hn]
  | cons c cs ih =>
    intro n hall hn
    have hc : isDigit c = true := by
      simp only [List.all_cons, Bool.and_eq_true] at hall
      exact hall.1
    have hcs : cs.all isDigit = true := by
      simp only [List.all_cons, Bool.and_eq_true] at hall
      exact hall.2
    have hd := digit_le_nine c hc
    have hle := foldl_digits_le cs (n * 10 + (c.toNat - 48))
    rw [parseUintLoop, if_pos hc, List.foldl_cons]
    by_cases h1 : n ≥ maxUint64 / 10 + 1
    · have hbig : ¬ (cs.foldl (fun a c => a * 10 + (c.toNat - 48)) (n * 10 + (c.toNat - 48))
          < 2 ^ 64) := by
        simp only [maxUint64] at h1
        omega
      simp only [if_pos h1, if_neg hbig]
    · have h10 : n * 10 < 2 ^ 64 := by
        simp only [maxUint64] at h1
        omega
      have h2 : (n * 10) % 2 ^ 64 = n * 10 := Nat.mod_eq_of_lt h10
      by_cases h3 : n * 10 + (c.toNat - 48) < 2 ^ 64
      · have h4 : (n * 10 + (c.toNat - 48)) % 2 ^ 64 = n * 10 + (c.toNat - 48) :=
          Nat.mod_eq_of_lt h3
        have h5 : ¬ (n * 10 + (c.toNat - 48) < n * 10
            ∨ n * 10 + (c.toNat - 48) > 2 ^ 64 - 1) := by omega
        simp only [if_neg h1, h2, h4, if_neg h5]
        exact ih _ hcs h3
      · have hbig : ¬ (cs.foldl (fun a c => a * 10 + (c.toNat - 48)) (n * 10 + (c.toNat - 48))
            < 2 ^ 64) := by omega
        have h5 : (n * 10 + (c.toNat - 48)) % 2 ^ 64 < n * 10
            ∨ (n * 10 + (c.toNat - 48)) % 2 ^ 64 > 2 ^ 64 - 1 := by
          left
          omega
        simp only [if_neg h1, h2, if_pos h5, if_neg hbig]

theorem atoiLoop_digits :
    ∀ (ds : List Char) (n : Nat), ds.all isDigit = true →
      atoiLoop ds (n : Int)
        = some ((ds.foldl (fun a c => a * 10 + (c.toNat - 48)) n : Nat) : Int) := by
  intro ds
  induction ds with
  | nil => intro n _; rfl
  | cons c cs ih =>
    intro n hall
    simp only [List.all_cons, Bool.and_eq_true] at hall
    rw [atoiLoop, if_pos hall.1, List.foldl_cons, ← ih (n * 10 + (c.toNat - 48)) hall.2]
    congr 1

theorem foldl_digits_lt :
    ∀ (ds : List Char) (n : Nat), ds.all isDigit = true →
      ds.foldl (fun a c => a * 10 + (c.toNat - 48)) n < (n + 1) * 10 ^ ds.length := by
  intro ds
  induction ds with
  | nil => intro n _; simp
  | cons c cs ih =>
    intro n hall
    simp only [List.all_cons, Bool.and_eq_true] at hall
    have hd := digit_le_nine c hall.1
    have h1 := ih (n * 10 + (c.toNat - 48)) hall.2
    have h2 : (n * 10 + (c.toNat - 48) + 1) * 10 ^ cs.length
        ≤ ((n + 1) * 10) * 10 ^ cs.length :=
      Nat.mul_le_mul_right _ (by omega)
    simp only [List.foldl_cons, List.length_cons, pow_succ]
    calc cs.foldl (fun a c => a * 10 + (c.toNat - 48)) (n * 10 + (c.toNat - 48))
        < (n * 10 + (c.toNat - 48) + 1) * 10 ^ cs.length := h1
      _ ≤ ((n + 1) * 10) * 10 ^ cs.length := h2
      _ = (n + 1) * (10 ^ cs.length * 10) := by ring

theorem toInt64_of_range (x : Int) (h1 : -2 ^ 63 ≤ x) (h2 : x ≤ 2 ^ 63 - 1) :
    toInt64 x = x := by
  unfold toInt64
  omega

theorem ParseUint_digits (s1 : List Char) (hne : s1 ≠ [])
    (hall : s1.all isDigit = true) :
    ParseUint s1 0
      = if decimalValue s1 < 2 ^ 64 then (decimalValue s1, none)
        else (2 ^ 64 - 1, some NumError.ErrRange) := by
  unfold ParseUint
  rw [if_neg hne]
  have := parseUintLoop_digits s1 0 hall (by norm_num)
  simpa [intSize, decimalValue] using this

theorem ParseInt_decimal (l : List Char) (hne : unsigned l ≠ [])
    (hall : (unsigned l).all isDigit = true) :
    (ParseInt l 0).1
      = clampInt (if l.head? = some '-' then -((decimalValue (unsigned l) : Nat) : Int)
          else ((decimalValue (unsigned l) : Nat) : Int)) := by
  cases l with
  | nil => exact absurd rfl hne
  | cons c cs =>
    have hs1 : (if c == '+' ∨ c == '-' then cs else c :: cs) = unsigned (c :: cs) := by
      simp [unsigned]
    have hu := ParseUint_digits (unsigned (c :: cs)) hne hall
    simp only [ParseInt, hs1, hu, List.head?_cons, Option.some.injEq]
    generalize decimalValue (unsigned (c :: cs)) = v
    by_cases hv : v < 2 ^ 64
    · by_cases hneg : c = '-'
      · subst hneg
        simp only [if_pos hv]
        simp only [intSize, clampInt, maxInt, minInt, toInt64, beq_self_eq_true, if_true,
          Bool.not_true, Bool.false_eq_true, false_and, if_false, true_and, reduceCtorEq]
        split_ifs <;> simp only [] <;> omega
      · have hb : (c == '-') = false := by simpa using hneg
        simp only [if_pos hv, if_neg hneg, hb]
        simp only [intSize, clampInt, maxInt, minInt, toInt64, if_true,
          Bool.not_false, Bool.false_eq_true, false_and, if_false, true_and, reduceCtorEq]
        split_ifs <;> simp only [] <;> omega
    · simp only [if_neg hv]
      have hgt : (2 : Nat) ^ 64 - 1 > 2 ^ (64 - 1) := by norm_num
      have hge : (2 : Nat) ^ 64 - 1 ≥ 2 ^ (64 - 1) := by norm_num
      by_cases hneg : c = '-'
      · subst hneg
        simp only [intSize, clampInt, maxInt, minInt, beq_self_eq_true, if_true,
          Bool.not_true, Bool.false_eq_true, false_and, if_false, true_and, reduceCtorEq,
          Option.some.injEq, hgt]
        split_ifs <;> omega
      · have hb : (c == '-') = false := by simpa using hneg
        simp only [if_neg hneg, hb]
        simp only [intSize, clampInt, maxInt, minInt, if_true,
          Bool.not_false, Bool.false_eq_true, false_and, if_false, true_and, reduceCtorEq,
          Option.some.injEq, hge]
        split_ifs <;> omega

theorem unsigned_length_le (l : List Char) : (unsigned l).length ≤ l.length := by
  cases l with
  | nil => simp [unsigned]
  | cons c cs =>
    simp only [unsigned]
    split <;> simp

theorem clampInt_range (x : Int) : -2 ^ 63 ≤ clampInt x ∧ clampInt x ≤ 2 ^ 63 - 1 := by
  simp only [clampInt, maxInt, minInt]
  split_ifs <;> omega

theorem clampInt_of_range (x : Int) (h1 : -2 ^ 63 ≤ x) (h2 : x ≤ 2 ^ 63 - 1) :
    clampInt x = x := by
  simp only [clampInt, maxInt, minInt]
  split_ifs <;> omega

theorem isDecimalInteger_iff (w : String) :
    isDecimalInteger w = true ↔ unsigned w.data ≠ [] ∧ (unsigned w.data).all isDigit = true := by
  simp only [isDecimalInteger, Bool.and_eq_true, Bool.not_eq_true', List.isEmpty_eq_false]

theorem Atoi_decimal (w : String) (hnum : isDecimalInteger w = true) :
    (Atoi w).1 = clampInt (intValue w) := by
  obtain ⟨hne, hall⟩ := (isDecimalInteger_iff w).mp hnum
  unfold Atoi
  simp only
  split
  · rename_i hfast
    have hlen : len w.data < 19 := by
      simp only [intSize] at hfast
      omega
    cases hd : w.data with
    | nil => rw [hd] at hne; exact absurd rfl hne
    | cons c cs =>
      rw [hd] at hne hall hlen
      have hs1 : (if c == '-' ∨ c == '+' then cs else c :: cs) = unsigned (c :: cs) := by
        by_cases h1 : c = '+' <;> by_cases h2 : c = '-' <;> simp [unsigned, h1, h2]
      have hpos : 0 < (unsigned (c :: cs)).length := List.length_pos.mpr hne
      have hcond : ¬ ((c == '-' ∨ c == '+') ∧ (unsigned (c :: cs)).length < 1) := by
        intro h
        omega
      have hloop := atoiLoop_digits (unsigned (c :: cs)) 0 hall
      have hv := foldl_digits_lt (unsigned (c :: cs)) 0 hall
      have hl1 := unsigned_length_le (c :: cs)
      have hl2 := length_le_len (c :: cs)
      have hpow : 10 ^ (unsigned (c :: cs)).length ≤ 10 ^ 18 :=
        Nat.pow_le_pow_right (by norm_num) (by omega)
      simp only [Nat.cast_zero] at hloop
      simp only [hs1, if_neg hcond, hloop, intValue, hd, List.head?_cons, Option.some.injEq,
        decimalValue]
      generalize (unsigned (c :: cs)).foldl (fun a c => a * 10 + (c.toNat - 48)) 0 = v at hv ⊢
      have hv18 : v < 10 ^ 18 := by omega
      by_cases hneg : c = '-'
      · subst hneg
        simp only [beq_self_eq_true, if_true]
        rw [clampInt_of_range _ (by omega) (by omega)]
      · have hb : (c == '-') = false := by simpa using hneg
        simp only [hb, if_neg hneg, Bool.false_eq_true, if_false]
        rw [clampInt_of_range _ (by omega) (by omega)]
  · have hp := ParseInt_decimal w.data hne hall
    have hr := clampInt_range (intValue w)
    have hi : (ParseInt w.data 0).1 = clampInt (intValue w) := by
      rw [hp]
      rfl
    show toInt64 (ParseInt w.data 0).1 = clampInt (intValue w)
    rw [hi]
    exact toInt64_of_range _ hr.1 hr.2

/-! ### The canonical decimal text of an integer -/

theorem digitChar_digit (k : Nat) (hk : k < 10) :
    isDigit (Nat.digitChar k) = true ∧ (Nat.digitChar k).toNat - 48 = k := by
  interval_cases k <;> exact ⟨rfl, rfl⟩

theorem toDigitsCore_spec :
    ∀ (fuel n : Nat) (ds : List Char), n < fuel →
      ∃ pre : List Char, Nat.toDigitsCore 10 fuel n ds = pre ++ ds ∧ pre ≠ []
        ∧ pre.all isDigit = true
        ∧ ∀ a : Nat, pre.foldl (fun a c => a * 10 + (c.toNat - 48)) a
            = a * 10 ^ pre.length + n := by
  intro fuel
  induction fuel with
  | zero => intro n ds h; omega
  | succ fuel ih =>
    intro n ds hn
    have hd := digitChar_digit (n % 10) (Nat.mod_lt _ (by norm_num))
    simp only [Nat.toDigitsCore]
    by_cases h0 : n / 10 = 0
    · rw [if_pos h0]
      refine ⟨[Nat.digitChar (n % 10)], rfl, by simp, by simp [hd.1], ?_⟩
      intro a
      simp only [List.foldl_cons, List.foldl_nil, List.length_singleton, hd.2]
      omega
    · rw [if_neg h0]
      obtain ⟨pre, hpre, _, hall, hval⟩ :=
        ih (n / 10) (Nat.digitChar (n % 10) :: ds) (by omega)
      refine ⟨pre ++ [Nat.digitChar (n % 10)], by simp [hpre], by simp, by simp [hall, hd.1], ?_⟩
      intro a
      simp only [List.foldl_append, List.foldl_cons, List.foldl_nil, hval, hd.2,
        List.length_append, List.length_singleton, pow_succ]
      have := Nat.div_add_mod n 10
      nlinarith [this]

theorem toDigits_spec (n : Nat) :
    Nat.toDigits 10 n ≠ [] ∧ (Nat.toDigits 10 n).all isDigit = true
      ∧ decimalValue (Nat.toDigits 10 n) = n := by
  obtain ⟨pre, hpre, hne, hall, hval⟩ := toDigitsCore_spec (n + 1) n [] (Nat.lt_succ_self n)
  have h : Nat.toDigits 10 n = pre := by
    simp only [Nat.toDigits, hpre, List.append_nil]
  rw [h]
  refine ⟨hne, hall, ?_⟩
  simp [decimalValue, hval]

theorem unsigned_of_digits (l : List Char) (hall : l.all isDigit = true) : unsigned l = l := by
  cases l with
  | nil => rfl
  | cons c cs =>
    simp only [List.all_cons, Bool.and_eq_true] at hall
    have h1 : c ≠ '+' := by
      intro h
      rw [h] at hall
      exact absurd hall.1 (by decide)
    have h2 : c ≠ '-' := by
      intro h
      rw [h] at hall
      exact absurd hall.1 (by decide)
    simp [unsigned, h1, h2]

theorem intText_spec (n : Int) :
    isDecimalInteger (intText n) = true ∧ intValue (intText n) = n := by
  obtain ⟨hne, hall, hval⟩ := toDigits_spec n.natAbs
  by_cases hn : n < 0
  · have hdata : (intText n).data = '-' :: Nat.toDigits 10 n.natAbs := by
      simp [intText, hn]
    constructor
    · rw [isDecimalInteger_iff, hdata]
      simp only [unsigned, or_true, if_true]
      exact ⟨hne, hall⟩
    · simp only [intValue, hdata, List.head?_cons, if_true, unsigned, or_true, hval]
      omega
  · have hdata : (intText n).data = Nat.toDigits 10 n.natAbs := by
      simp [intText, hn]
    have hu := unsigned_of_digits _ hall
    have hhead : ¬ ((Nat.toDigits 10 n.natAbs).head? = some '-') := by
      intro h
      obtain ⟨t, ht⟩ := List.head?_eq_some_iff.mp h
      rw [ht] at hall
      simp only [List.all_cons, Bool.and_eq_true] at hall
      exact absurd hall.1 (by decide)
    constructor
    · rw [isDecimalInteger_iff, hdata, hu]
      exact ⟨hne, hall⟩
    · simp only [intValue, hdata, hu, if_neg hhead, hval]
      omega

theorem Atoi_intText (n : Int) (hlo : -2 ^ 63 ≤ n) (hhi : n ≤ 2 ^ 63 - 1) :
    (Atoi (intText n)).1 = n := by
  rw [Atoi_decimal _ (intText_spec n).1, (intText_spec n).2]
  exact clampInt_of_range n hlo hhi

/-! ### The decoders as functions of the occurrence lists -/

theorem parseMediaThumbnails_occurrences (t : Extensions) :
    parseMediaThumbnails t
      = if occurrences t "thumbnail" = [] then none
        else some ((occurrences t "thumbnail").map thumbnailOf) := by
  rw [parseMediaThumbnails_eq, occurrences]
  cases h : (t.getD []).lookup "thumbnail" with
  | none => rfl
  | some ms => cases ms <;> simp

theorem parseMediaCategories_occurrences (t : Extensions) :
    parseMediaCategories t
      = if occurrences t "category" = [] then none
        else some ((occurrences t "category").map categoryOf) := by
  rw [parseMediaCategories_eq, occurrences]
  cases h : (t.getD []).lookup "category" with
  | none => rfl
  | some ms => cases ms <;> simp

theorem parseMediaHashes_occurrences (t : Extensions) :
    parseMediaHashes t
      = if occurrences t "hash" = [] then none
        else some ((occurrences t "hash").map hashOf) := by
  rw [parseMediaHashes_eq, occurrences]
  cases h : (t.getD []).lookup "hash" with
  | none => rfl
  | some ms => cases ms <;> simp

theorem parseTextExtension_occurrences (name : String) (t : Extensions) :
    parseTextExtension name t
      = ((occurrences t name).head?.map Extension.Value).getD "" :=
  parseTextExtension_eq name t

theorem elems_ite_map {β : Type} (f : Extension → β) (l : List Extension) :
    Slice.elems (if l = [] then none else some (l.map f)) = l.map f := by
  by_cases h : l = []
  · simp [h, Slice.elems]
  · simp [h, Slice.elems]

theorem parseMediaThumbnails_at (ext : List (String × List Extension))
    (pre post : List Extension) (x : Extension)
    (hlook : ext.lookup "thumbnail" = some (pre ++ x :: post)) :
    ∃ rs : List MediaThumbnail, parseMediaThumbnails (some ext) = some rs
      ∧ rs.length = pre.length + 1 + post.length
      ∧ rs[pre.length]? = some (thumbnailOf x) := by
  refine ⟨(pre ++ x :: post).map thumbnailOf,
    parseMediaThumbnails_some ext _ hlook (by simp), ?_, ?_⟩
  · simp
    omega
  · rw [List.map_append, List.map_cons, List.getElem?_append_right (by simp)]
    simp

theorem Split_length (s sep : String) (hsep : sep ≠ "") :
    (Split s sep).length = Count s.data sep.data + 1 := by
  have h : sep.data ≠ [] := fun h => hsep (String.ext h)
  simp only [Split, List.length_map]
  rw [genSplit_eq _ _ h, Count_eq_countLoop _ _ h]
  exact splitLoop_length sep.data h _ _ (Nat.lt_succ_self _)

theorem Count_comma (s : List Char) : Count s [','] = s.count ',' := by
  rw [Count_eq_countLoop s [','] (by simp)]
  exact countLoop_singleton ',' _ s (Nat.lt_succ_self _)

theorem lookup_cons_ne {β : Type} (k k2 : String) (v : β) (l : List (String × β))
    (h : k ≠ k2) : ((k2, v) :: l).lookup k = l.lookup k := by
  have hb : (k == k2) = false := by simpa using h
  simp [List.lookup, hb]

theorem lookup_filter_ne {β : Type} (k k2 : String) (h : k ≠ k2) :
    ∀ l : List (String × β), (l.filter (fun kv => kv.1 != k2)).lookup k = l.lookup k := by
  intro l
  induction l with
  | nil => rfl
  | cons kv l ih =>
    obtain ⟨a, b⟩ := kv
    by_cases ha : a = k2
    · subst ha
      have hb : (k == a) = false := by simpa using h
      simp [List.filter, List.lookup, hb, ih]
    · have hb : (a != k2) = true := by simpa using ha
      simp only [List.filter, hb, List.lookup]
      cases hk : (k == a) with
      | true => rfl
      | false => exact ih

theorem thumbnailOf_congr (o o2 : Extension)
    (h : ∀ k : String, k ≠ "height" → o.Attrs.lookup k = o2.Attrs.lookup k) :
    thumbnailOf o = thumbnailOf o2 := by
  have h1 := h "url" (by decide)
  have h2 := h "width" (by decide)
  simp only [thumbnailOf, h1, h2]

theorem nil_or_cons_of_occurrences {β : Type} (f : Extension → β) (l : List Extension) :
    (if l = [] then none else some (l.map f)) = (none : Slice β)
      ∨ ∃ (x : β) (xs : List β), (if l = [] then none else some (l.map f)) = some (x :: xs) := by
  cases l with
  | nil => left; rfl
  | cons a as => right; exact ⟨f a, as.map f, by simp⟩

/-! ## The claims, continued -/

/-- C11: for every tree, the `nil` tree included, each of the list fields
`Keywords`, `Categories`, `Thumbnails` and `Hashes` of `NewMediaExtension` is
either `nil` or a non-nil sequence with a first entry; none is ever a non-nil
empty sequence. -/
theorem NewMediaExtension_list_fields_nil_or_nonempty (extensions : Extensions) :
    ((NewMediaExtension extensions).Keywords = none
        ∨ ∃ (x : String) (xs : List String),
            (NewMediaExtension extensions).Keywords = some (x :: xs))
      ∧ ((NewMediaExtension extensions).Categories = none
        ∨ ∃ (x : MediaCategory) (xs : List MediaCategory),
            (NewMediaExtension extensions).Categories = some (x :: xs))
      ∧ ((NewMediaExtension extensions).Thumbnails = none
        ∨ ∃ (x : MediaThumbnail) (xs : List MediaThumbnail),
            (NewMediaExtension extensions).Thumbnails = some (x :: xs))
      ∧ ((NewMediaExtension extensions).Hashes = none
        ∨ ∃ (x : MediaHash) (xs : List MediaHash),
            (NewMediaExtension extensions).Hashes = some (x :: xs))
      ∧ (NewMediaExtension extensions).Keywords ≠ some []
      ∧ (NewMediaExtension extensions).Categories ≠ some []
      ∧ (NewMediaExtension extensions).Thumbnails ≠ some []
      ∧ (NewMediaExtension extensions).Hashes ≠ some [] := by
  have hk : ∃ (x : String) (xs : List String),
      (NewMediaExtension extensions).Keywords = some (x :: xs) := by
    show ∃ (x : String) (xs : List String),
      parseDelimitedTextExtension "keywords" "," extensions = some (x :: xs)
    rw [parseDelimitedTextExtension_eq]
    have hl := Split_length (parseTextExtension "keywords" extensions) "," (by decide)
    cases hs : Split (parseTextExtension "keywords" extensions) "," with
    | nil => rw [hs] at hl; simp at hl
    | cons p ps => exact ⟨TrimSpace p, ps.map TrimSpace, rfl⟩
  have hc : (NewMediaExtension extensions).Categories
      = if occurrences extensions "category" = [] then none
        else some ((occurrences extensions "category").map categoryOf) :=
    parseMediaCategories_occurrences extensions
  have ht : (NewMediaExtension extensions).Thumbnails
      = if occurrences extensions "thumbnail" = [] then none
        else some ((occurrences extensions "thumbnail").map thumbnailOf) :=
    parseMediaThumbnails_occurrences extensions
  have hh : (NewMediaExtension extensions).Hashes
      = if occurrences extensions "hash" = [] then none
        else some ((occurrences extensions "hash").map hashOf) :=
    parseMediaHashes_occurrences extensions
  have c1 := nil_or_cons_of_occurrences categoryOf (occurrences extensions "category")
  have c2 := nil_or_cons_of_occurrences thumbnailOf (occurrences extensions "thumbnail")
  have c3 := nil_or_cons_of_occurrences hashOf (occurrences extensions "hash")
  rw [← hc] at c1
  rw [← ht] at c2
  rw [← hh] at c3
  refine ⟨Or.inr hk, c1, c2, c3, ?_, ?_, ?_, ?_⟩
  · obtain ⟨x, xs, h⟩ := hk
    rw [h]
    simp
  · rcases c1 with h | ⟨x, xs, h⟩ <;> rw [h] <;> simp
  · rcases c2 with h | ⟨x, xs, h⟩ <;> rw [h] <;> simp
  · rcases c3 with h | ⟨x, xs, h⟩ <;> rw [h] <;> simp

/-- C12 (counterexample): the width text `"99999999999999999999"` is a digit
string whose value lies above the `int` range, yet the record gets
`Width = 9223372036854775807` and not `0`. -/
theorem thumbnail_width_out_of_range_not_zero :
    isDecimalInteger "99999999999999999999" = true
      ∧ intValue "99999999999999999999" > maxInt
      ∧ parseMediaThumbnails (some [("thumbnail",
            [⟨"", [("width", "99999999999999999999")]⟩])])
          = some [{ URL := "", Width := 9223372036854775807, Height := 9223372036854775807 }]
      ∧ ¬ (∀ r ∈ (parseMediaThumbnails (some [("thumbnail",
            [⟨"", [("width", "99999999999999999999")]⟩])])).elems, r.Width = 0) := by
  decide

/-- C12 (amended): for every thumbnail occurrence whose width attribute is
present, the record at its position has `Width = 0` when the text is empty or,
more generally, is no decimal integer and its leading digits stay below
`2 ^ 64`; when the text is a decimal integer above the `int` range the record
has `Width` the largest `int`, and when it is one below the range the
smallest `int`. -/
theorem thumbnail_width_uninterpretable
    (ext : List (String × List Extension)) (pre post : List Extension)
    (x : Extension) (w : String)
    (hlook : ext.lookup "thumbnail" = some (pre ++ x :: post))
    (hw : x.Attrs.lookup "width" = some w) :
    ∃ (rs : List MediaThumbnail) (r : MediaThumbnail),
      parseMediaThumbnails (some ext) = some rs ∧ rs[pre.length]? = some r
      ∧ (w = "" → r.Width = 0)
      ∧ (isDecimalInteger w = false → decimalValue (leadingDigits w) < 2 ^ 64 → r.Width = 0)
      ∧ (isDecimalInteger w = true → intValue w > maxInt → r.Width = maxInt)
      ∧ (isDecimalInteger w = true → intValue w < minInt → r.Width = minInt) := by
  obtain ⟨rs, hrs, _, hat⟩ := parseMediaThumbnails_at ext pre post x hlook
  have hwidth : (thumbnailOf x).Width = (Atoi w).1 := by
    rw [(thumbnailOf_fields x).2.1, hw]
    rfl
  refine ⟨rs, thumbnailOf x, hrs, hat, ?_, ?_, ?_, ?_⟩
  · intro h
    subst h
    rw [hwidth]
    rfl
  · intro hnum hval
    rw [hwidth, Atoi_of_not_decimal w hnum hval]
  · intro hnum hbig
    rw [hwidth, Atoi_decimal w hnum]
    simp only [clampInt, if_pos hbig]
  · intro hnum hsmall
    have hnot : ¬ intValue w > maxInt := by
      simp only [maxInt, minInt] at hsmall ⊢
      omega
    rw [hwidth, Atoi_decimal w hnum]
    simp only [clampInt, if_neg hnot, if_pos hsmall]

/-- C12 (amended) at one occurrence with width `"-99999999999999999999"` and at
one with width `"12px"`. -/
theorem thumbnail_width_uninterpretable_witness :
    (∃ (rs : List MediaThumbnail) (r : MediaThumbnail),
        parseMediaThumbnails (some [("thumbnail",
            [⟨"", [("width", "-99999999999999999999")]⟩])]) = some rs
        ∧ rs[0]? = some r ∧ r.Width = -9223372036854775808)
      ∧ (∃ (rs : List MediaThumbnail) (r : MediaThumbnail),
        parseMediaThumbnails (some [("thumbnail",
            [⟨"", [("url", "u")]⟩, ⟨"", [("width", "12px")]⟩])]) = some rs
        ∧ rs[1]? = some r ∧ r.Width = 0) := by
  constructor
  · obtain ⟨rs, r, h1, h2, _, _, _, h6⟩ := thumbnail_width_uninterpretable
      [("thumbnail", [⟨"", [("width", "-99999999999999999999")]⟩])] [] []
      ⟨"", [("width", "-99999999999999999999")]⟩ "-99999999999999999999" rfl rfl
    exact ⟨rs, r, h1, h2, h6 (by decide) (by decide)⟩
  · obtain ⟨rs, r, h1, h2, _, h4, _, _⟩ := thumbnail_width_uninterpretable
      [("thumbnail", [⟨"", [("url", "u")]⟩, ⟨"", [("width", "12px")]⟩])]
      [⟨"", [("url", "u")]⟩] [] ⟨"", [("width", "12px")]⟩ "12px" rfl rfl
    exact ⟨rs, r, h1, h2, h4 (by decide) (by decide)⟩

theorem map_thumbnailOf_congr :
    ∀ (ms ms2 : List Extension),
      List.Forall₂ (fun o o2 : Extension =>
        ∀ k : String, k ≠ "height" → o.Attrs.lookup k = o2.Attrs.lookup k) ms ms2 →
      ms.map thumbnailOf = ms2.map thumbnailOf := by
  intro ms ms2 h
  induction h with
  | nil => rfl
  | cons hab _ ih =>
    simp only [List.map_cons, ih, thumbnailOf_congr _ _ hab]

/-- C13: the height lookup reads the width attribute. For every list of
thumbnail occurrences every produced record has `Height` equal to `Width`, and
two trees whose thumbnail occurrences agree, position by position, on every
attribute other than `height` give the same result; in particular putting a
height attribute in front of the attributes of an occurrence (which adds or
changes it) and removing all height attributes leave its record unchanged.
The record at the position of an occurrence has `Height` and `Width` both equal
to the value `strconv.Atoi` returns for the text of its width attribute, and
both `0` when it has no width attribute, whatever its height attribute is;
`url = "u"`, `width = "120"`, `height = "80"` gives `Height = 120`, and
`height = "80"` alone gives `Height = 0`. -/
theorem thumbnail_height_is_width
    (ext ext2 : List (String × List Extension)) (ms ms2 : List Extension)
    (hlook : ext.lookup "thumbnail" = some ms)
    (hlook2 : ext2.lookup "thumbnail" = some ms2)
    (hsame : List.Forall₂ (fun o o2 : Extension =>
      ∀ k : String, k ≠ "height" → o.Attrs.lookup k = o2.Attrs.lookup k) ms ms2) :
    (∀ r ∈ (parseMediaThumbnails (some ext)).elems, r.Height = r.Width)
      ∧ (parseMediaThumbnails (some ext)).elems.length = ms.length
      ∧ parseMediaThumbnails (some ext) = parseMediaThumbnails (some ext2)
      ∧ (∀ (o : Extension) (h : String),
          thumbnailOf { o with Attrs := ("height", h) :: o.Attrs } = thumbnailOf o)
      ∧ (∀ o : Extension,
          thumbnailOf { o with Attrs := o.Attrs.filter (fun kv => kv.1 != "height") }
            = thumbnailOf o)
      ∧ (∀ (i : Nat) (o : Extension), ms[i]? = some o →
          ∃ r : MediaThumbnail, (parseMediaThumbnails (some ext)).elems[i]? = some r
            ∧ r.Height = ((o.Attrs.lookup "width").map (fun w => (Atoi w).1)).getD 0
            ∧ r.Width = ((o.Attrs.lookup "width").map (fun w => (Atoi w).1)).getD 0
            ∧ (∀ w : String, o.Attrs.lookup "width" = some w → r.Height = (Atoi w).1)
            ∧ (o.Attrs.lookup "width" = none → r.Height = 0))
      ∧ parseMediaThumbnails (some [("thumbnail",
            [⟨"", [("url", "u"), ("width", "120"), ("height", "80")]⟩])])
          = some [{ URL := "u", Width := 120, Height := 120 }]
      ∧ parseMediaThumbnails (some [("thumbnail", [⟨"", [("height", "80")]⟩])])
          = some [{ URL := "", Width := 0, Height := 0 }] := by
  have ho : occurrences (some ext) "thumbnail" = ms := by simp [occurrences, hlook]
  have ho2 : occurrences (some ext2) "thumbnail" = ms2 := by simp [occurrences, hlook2]
  have hmap := map_thumbnailOf_congr ms ms2 hsame
  have hnil : ms = [] ↔ ms2 = [] := by
    constructor
    · intro h
      rw [h] at hsame
      cases hsame
      rfl
    · intro h
      rw [h] at hsame
      cases hsame
      rfl
  refine ⟨?_, ?_, ?_, ?_, ?_, ?_, by decide, by decide⟩
  · intro r hr
    rw [parseMediaThumbnails_occurrences, ho, elems_ite_map] at hr
    obtain ⟨o, _, rfl⟩ := List.mem_map.mp hr
    rw [(thumbnailOf_fields o).2.1, (thumbnailOf_fields o).2.2]
  · rw [parseMediaThumbnails_occurrences, ho, elems_ite_map]
    simp
  · rw [parseMediaThumbnails_occurrences, parseMediaThumbnails_occurrences, ho, ho2, hmap]
    by_cases h : ms = []
    · rw [if_pos h, if_pos (hnil.mp h)]
    · rw [if_neg h, if_neg (fun h2 => h (hnil.mpr h2))]
  · intro o h
    apply thumbnailOf_congr
    intro k hk
    exact lookup_cons_ne k "height" h o.Attrs hk
  · intro o
    apply thumbnailOf_congr
    intro k hk
    exact lookup_filter_ne k "height" hk o.Attrs
  · intro i o hi
    refine ⟨thumbnailOf o, ?_, (thumbnailOf_fields o).2.2, (thumbnailOf_fields o).2.1, ?_, ?_⟩
    · rw [parseMediaThumbnails_occurrences, ho, elems_ite_map]
      simp [hi]
    · intro w hw
      rw [(thumbnailOf_fields o).2.2, hw]
      rfl
    · intro hw
      rw [(thumbnailOf_fields o).2.2, hw]
      rfl

/-- C13 at two trees whose single thumbnail occurrences differ in the height
attribute only: the record of the occurrence with `width = "120"` and
`height = "80"` has `Height = 120`. -/
theorem thumbnail_height_is_width_witness :
    (∀ r ∈ (parseMediaThumbnails (some [("thumbnail",
          [⟨"", [("url", "u"), ("width", "120"), ("height", "80")]⟩])])).elems,
        r.Height = r.Width)
      ∧ parseMediaThumbnails (some [("thumbnail",
          [⟨"", [("url", "u"), ("width", "120"), ("height", "80")]⟩])])
        = parseMediaThumbnails (some [("thumbnail",
          [⟨"", [("url", "u"), ("width", "120")]⟩])])
      ∧ (∃ r : MediaThumbnail,
          (parseMediaThumbnails (some [("thumbnail",
            [⟨"", [("url", "u"), ("width", "120"), ("height", "80")]⟩])])).elems[0]? = some r
          ∧ r.Height = 120 ∧ r.Width = 120) := by
  have h := thumbnail_height_is_width
    [("thumbnail", [⟨"", [("url", "u"), ("width", "120"), ("height", "80")]⟩])]
    [("thumbnail", [⟨"", [("url", "u"), ("width", "120")]⟩])]
    [⟨"", [("url", "u"), ("width", "120"), ("height", "80")]⟩]
    [⟨"", [("url", "u"), ("width", "120")]⟩] rfl rfl
    (List.Forall₂.cons
      (by
        intro k hk
        have hb : (k == "height") = false := by simpa using hk
        simp [List.lookup, hb])
      List.Forall₂.nil)
  refine ⟨h.1, h.2.2.1, ?_⟩
  obtain ⟨r, hr, hH, hW, _, _⟩ :=
    h.2.2.2.2.2.1 0 ⟨"", [("url", "u"), ("width", "120"), ("height", "80")]⟩ rfl
  exact ⟨r, hr, hH.trans (by decide), hW.trans (by decide)⟩

/-- C14: for each of the three record decoders and all occurrence lists `xs`
and `ys`: for a tree whose list under the decoder's name is `xs ++ ys`, the
records (the `nil` result read as the empty sequence) are the records decoded
from a tree holding `xs` followed by those decoded from a tree holding `ys`;
there is one record per occurrence, in occurrence order. -/
theorem record_decoders_append (xs ys : List Extension) (t tx ty : Extensions)
    (name : String)
    (ht : occurrences t name = xs ++ ys)
    (hx : occurrences tx name = xs) (hy : occurrences ty name = ys) :
    (name = "thumbnail" →
        (parseMediaThumbnails t).elems
            = (parseMediaThumbnails tx).elems ++ (parseMediaThumbnails ty).elems
          ∧ (parseMediaThumbnails t).elems = (xs ++ ys).map thumbnailOf)
      ∧ (name = "category" →
        (parseMediaCategories t).elems
            = (parseMediaCategories tx).elems ++ (parseMediaCategories ty).elems
          ∧ (parseMediaCategories t).elems = (xs ++ ys).map categoryOf)
      ∧ (name = "hash" →
        (parseMediaHashes t).elems
            = (parseMediaHashes tx).elems ++ (parseMediaHashes ty).elems
          ∧ (parseMediaHashes t).elems = (xs ++ ys).map hashOf) := by
  refine ⟨?_, ?_, ?_⟩
  · intro hn
    subst hn
    have e1 : (parseMediaThumbnails t).elems = (xs ++ ys).map thumbnailOf := by
      rw [parseMediaThumbnails_occurrences, ht, elems_ite_map]
    have e2 : (parseMediaThumbnails tx).elems = xs.map thumbnailOf := by
      rw [parseMediaThumbnails_occurrences, hx, elems_ite_map]
    have e3 : (parseMediaThumbnails ty).elems = ys.map thumbnailOf := by
      rw [parseMediaThumbnails_occurrences, hy, elems_ite_map]
    exact ⟨by rw [e1, e2, e3, List.map_append], e1⟩
  · intro hn
    subst hn
    have e1 : (parseMediaCategories t).elems = (xs ++ ys).map categoryOf := by
      rw [parseMediaCategories_occurrences, ht, elems_ite_map]
    have e2 : (parseMediaCategories tx).elems = xs.map categoryOf := by
      rw [parseMediaCategories_occurrences, hx, elems_ite_map]
    have e3 : (parseMediaCategories ty).elems = ys.map categoryOf := by
      rw [parseMediaCategories_occurrences, hy, elems_ite_map]
    exact ⟨by rw [e1, e2, e3, List.map_append], e1⟩
  · intro hn
    subst hn
    have e1 : (parseMediaHashes t).elems = (xs ++ ys).map hashOf := by
      rw [parseMediaHashes_occurrences, ht, elems_ite_map]
    have e2 : (parseMediaHashes tx).elems = xs.map hashOf := by
      rw [parseMediaHashes_occurrences, hx, elems_ite_map]
    have e3 : (parseMediaHashes ty).elems = ys.map hashOf := by
      rw [parseMediaHashes_occurrences, hy, elems_ite_map]
    exact ⟨by rw [e1, e2, e3, List.map_append], e1⟩

/-- C14 for the hash decoder at `xs` of two equal occurrences and `ys` of one:
nothing is dropped as a duplicate. -/
theorem record_decoders_append_witness :
    (parseMediaHashes (some [("hash",
        [⟨"a", [("algo", "md5")]⟩, ⟨"a", [("algo", "md5")]⟩, ⟨"b", []⟩])])).elems
      = (parseMediaHashes (some [("hash",
          [⟨"a", [("algo", "md5")]⟩, ⟨"a", [("algo", "md5")]⟩])])).elems
        ++ (parseMediaHashes (some [("hash", [⟨"b", []⟩])])).elems :=
  ((record_decoders_append
      [⟨"a", [("algo", "md5")]⟩, ⟨"a", [("algo", "md5")]⟩] [⟨"b", []⟩]
      (some [("hash", [⟨"a", [("algo", "md5")]⟩, ⟨"a", [("algo", "md5")]⟩, ⟨"b", []⟩])])
      (some [("hash", [⟨"a", [("algo", "md5")]⟩, ⟨"a", [("algo", "md5")]⟩])])
      (some [("hash", [⟨"b", []⟩])]) "hash" rfl rfl rfl).2.2 rfl).1

/-- C15: for every integer `n` of the 64 bit `int` range, negative values
included, a thumbnail occurrence whose width attribute is the canonical decimal
text of `n` yields a record with `Width = n` at its position; there is no range
validation, the text `"-42"` gives `Width = -42`. -/
theorem thumbnail_width_of_intText (n : Int) (hlo : minInt ≤ n) (hhi : n ≤ maxInt)
    (ext : List (String × List Extension)) (pre post : List Extension) (x : Extension)
    (hlook : ext.lookup "thumbnail" = some (pre ++ x :: post))
    (hw : x.Attrs.lookup "width" = some (intText n)) :
    (∃ (rs : List MediaThumbnail) (r : MediaThumbnail),
        parseMediaThumbnails (some ext) = some rs ∧ rs[pre.length]? = some r
        ∧ r.Width = n)
      ∧ intText (-42) = "-42"
      ∧ parseMediaThumbnails (some [("thumbnail", [⟨"", [("width", "-42")]⟩])])
          = some [{ URL := "", Width := -42, Height := -42 }] := by
  refine ⟨?_, by decide, by decide⟩
  obtain ⟨rs, hrs, _, hat⟩ := parseMediaThumbnails_at ext pre post x hlook
  refine ⟨rs, thumbnailOf x, hrs, hat, ?_⟩
  rw [(thumbnailOf_fields x).2.1, hw]
  simp only [minInt, maxInt] at hlo hhi
  exact Atoi_intText n hlo hhi

/-- C15 at the smallest `int`, in the second of two occurrences. -/
theorem thumbnail_width_of_intText_witness :
    intText (-9223372036854775808) = "-9223372036854775808"
      ∧ ∃ (rs : List MediaThumbnail) (r : MediaThumbnail),
          parseMediaThumbnails (some [("thumbnail",
              [⟨"", [("width", "7")]⟩, ⟨"", [("width", "-9223372036854775808")]⟩])]) = some rs
          ∧ rs[1]? = some r ∧ r.Width = -9223372036854775808 :=
  ⟨by decide,
   (thumbnail_width_of_intText (-9223372036854775808) (by decide) (by decide)
      [("thumbnail", [⟨"", [("width", "7")]⟩, ⟨"", [("width", "-9223372036854775808")]⟩])]
      [⟨"", [("width", "7")]⟩] [] ⟨"", [("width", "-9223372036854775808")]⟩
      rfl (by decide)).1⟩

/-- C16: for every tree the `Keywords` of `NewMediaExtension` are a non-nil
sequence whose length is one plus the number of commas in the raw text of the
first `"keywords"` occurrence (the empty text when there is none), so the
length is at least 1 and empty pieces are kept: `",a,,b,"` gives
`["", "a", "", "b", ""]`. -/
theorem NewMediaExtension_keywords_length (extensions : Extensions) :
    (∃ ks : List String,
        (NewMediaExtension extensions).Keywords = some ks
        ∧ ks.length
            = 1 + (((occurrences extensions "keywords").head?.map
                      Extension.Value).getD "").data.count ','
        ∧ 1 ≤ ks.length)
      ∧ (NewMediaExtension extensions).Keywords.len
          = 1 + (parseTextExtension "keywords" extensions).data.count ','
      ∧ (NewMediaExtension (some [("keywords", [⟨",a,,b,", []⟩])])).Keywords
          = some ["", "a", "", "b", ""] := by
  have hk : (NewMediaExtension extensions).Keywords
      = some ((Split (parseTextExtension "keywords" extensions) ",").map TrimSpace) :=
    parseDelimitedTextExtension_eq "keywords" "," extensions
  have hl : (Split (parseTextExtension "keywords" extensions) ",").length
      = 1 + (parseTextExtension "keywords" extensions).data.count ',' := by
    rw [Split_length _ "," (by decide)]
    have : (",": String).data = [','] := rfl
    rw [this, Count_comma]
    omega
  refine ⟨⟨_, hk, ?_, ?_⟩, ?_, by decide⟩
  · rw [List.length_map, hl, parseTextExtension_occurrences]
  · rw [List.length_map, hl]
    omega
  · rw [hk]
    simp only [Slice.len, Option.getD_some, List.length_map, hl]

/-- C17: `NewMediaExtension` depends only on the occurrence lists under
`"title"`, `"description"`, `"keywords"`, `"thumbnail"`, `"category"` and
`"hash"`: two trees that agree on these six lists give equal results, and each
output field is already fixed by the list under its own name. -/
theorem NewMediaExtension_frame (t1 t2 : Extensions) :
    ((∀ name ∈ ["title", "description", "keywords", "thumbnail", "category", "hash"],
          occurrences t1 name = occurrences t2 name) →
        NewMediaExtension t1 = NewMediaExtension t2)
      ∧ (occurrences t1 "title" = occurrences t2 "title" →
          (NewMediaExtension t1).Title = (NewMediaExtension t2).Title)
      ∧ (occurrences t1 "description" = occurrences t2 "description" →
          (NewMediaExtension t1).Description = (NewMediaExtension t2).Description)
      ∧ (occurrences t1 "keywords" = occurrences t2 "keywords" →
          (NewMediaExtension t1).Keywords = (NewMediaExtension t2).Keywords)
      ∧ (occurrences t1 "thumbnail" = occurrences t2 "thumbnail" →
          (NewMediaExtension t1).Thumbnails = (NewMediaExtension t2).Thumbnails)
      ∧ (occurrences t1 "category" = occurrences t2 "category" →
          (NewMediaExtension t1).Categories = (NewMediaExtension t2).Categories)
      ∧ (occurrences t1 "hash" = occurrences t2 "hash" →
          (NewMediaExtension t1).Hashes = (NewMediaExtension t2).Hashes) := by
  have hT : occurrences t1 "title" = occurrences t2 "title" →
      (NewMediaExtension t1).Title = (NewMediaExtension t2).Title := by
    intro h
    show parseTextExtension "title" t1 = parseTextExtension "title" t2
    rw [parseTextExtension_occurrences, parseTextExtension_occurrences, h]
  have hD : occurrences t1 "description" = occurrences t2 "description" →
      (NewMediaExtension t1).Description = (NewMediaExtension t2).Description := by
    intro h
    show parseTextExtension "description" t1 = parseTextExtension "description" t2
    rw [parseTextExtension_occurrences, parseTextExtension_occurrences, h]
  have hK : occurrences t1 "keywords" = occurrences t2 "keywords" →
      (NewMediaExtension t1).Keywords = (NewMediaExtension t2).Keywords := by
    intro h
    show parseDelimitedTextExtension "keywords" "," t1
      = parseDelimitedTextExtension "keywords" "," t2
    rw [parseDelimitedTextExtension_eq, parseDelimitedTextExtension_eq,
      parseTextExtension_occurrences, parseTextExtension_occurrences, h]
  have hTh : occurrences t1 "thumbnail" = occurrences t2 "thumbnail" →
      (NewMediaExtension t1).Thumbnails = (NewMediaExtension t2).Thumbnails := by
    intro h
    show parseMediaThumbnails t1 = parseMediaThumbnails t2
    rw [parseMediaThumbnails_occurrences, parseMediaThumbnails_occurrences, h]
  have hC : occurrences t1 "category" = occurrences t2 "category" →
      (NewMediaExtension t1).Categories = (NewMediaExtension t2).Categories := by
    intro h
    show parseMediaCategories t1 = parseMediaCategories t2
    rw [parseMediaCategories_occurrences, parseMediaCategories_occurrences, h]
  have hH : occurrences t1 "hash" = occurrences t2 "hash" →
      (NewMediaExtension t1).Hashes = (NewMediaExtension t2).Hashes := by
    intro h
    show parseMediaHashes t1 = parseMediaHashes t2
    rw [parseMediaHashes_occurrences, parseMediaHashes_occurrences, h]
  refine ⟨?_, hT, hD, hK, hTh, hC, hH⟩
  intro h
  have e1 := hT (h "title" (by simp))
  have e2 := hD (h "description" (by simp))
  have e3 := hK (h "keywords" (by simp))
  have e4 := hTh (h "thumbnail" (by simp))
  have e5 := hC (h "category" (by simp))
  have e6 := hH (h "hash" (by simp))
  cases hm1 : NewMediaExtension t1
  cases hm2 : NewMediaExtension t2
  rw [hm1, hm2] at e1 e2 e3 e4 e5 e6
  simp only at e1 e2 e3 e4 e5 e6
  simp only [MediaExtension.mk.injEq]
  exact ⟨e1, e2, e3, e5, e4, e6⟩

/-- C17 at two trees that differ in the order of the names, in an occurrence
under the name `"credit"` and in an empty list under `"category"`. -/
theorem NewMediaExtension_frame_witness :
    NewMediaExtension (some [("title", [⟨"t", []⟩]), ("credit", [⟨"c", []⟩]),
        ("hash", [⟨"h", [("algo", "md5")]⟩])])
      = NewMediaExtension (some [("hash", [⟨"h", [("algo", "md5")]⟩]), ("category", []),
        ("title", [⟨"t", []⟩])]) :=
  (NewMediaExtension_frame
    (some [("title", [⟨"t", []⟩]), ("credit", [⟨"c", []⟩]),
      ("hash", [⟨"h", [("algo", "md5")]⟩])])
    (some [("hash", [⟨"h", [("algo", "md5")]⟩]), ("category", []),
      ("title", [⟨"t", []⟩])])).1 (by decide)

end Gofeed
